import Mathlib

/-!
# Todo-List (Go): a shallow embedding of `Todo-List.go`

The program is a single Go file.  Every command loads `todos.json`
(`loadTodos`), works on the in-memory slice, and possibly writes the file back
(`saveTodos`).  The embedding passes the state of the outside world (the file
and what was printed) explicitly.

Go strings are byte sequences that need not be valid UTF-8, so they are
embedded as lists of byte values.  Go's `int` is taken to be 64 bits wide
(the width on every 64-bit platform); arithmetic on it wraps.

The library functions the program calls (`strconv.Atoi`, `json.MarshalIndent`,
`json.Unmarshal`, `fmt.Println`, `fmt.Printf`) are embedded for the argument
types the program uses them at.
-/

namespace TodoList

/-! ## Bytes, strings and UTF-8 (`unicode/utf8`) -/

/-- Go `string`: an arbitrary sequence of bytes, each byte as its numeric
value (below 256). -/
abbrev GoString := List Nat

/-- The replacement rune `utf8.RuneError` (U+FFFD). -/
def RuneError : Nat := 0xFFFD

/-- The table `utf8.first` together with `utf8.acceptRanges`: for a leading
byte of a multi-byte sequence, the length of the sequence and the range
accepted for the second byte. -/
def first (b : Nat) : Option (Nat × Nat × Nat) :=
  if 0xC2 ≤ b ∧ b ≤ 0xDF then some (2, 0x80, 0xBF)
  else if b = 0xE0 then some (3, 0xA0, 0xBF)
  else if 0xE1 ≤ b ∧ b ≤ 0xEC then some (3, 0x80, 0xBF)
  else if b = 0xED then some (3, 0x80, 0x9F)
  else if 0xEE ≤ b ∧ b ≤ 0xEF then some (3, 0x80, 0xBF)
  else if b = 0xF0 then some (4, 0x90, 0xBF)
  else if 0xF1 ≤ b ∧ b ≤ 0xF3 then some (4, 0x80, 0xBF)
  else if b = 0xF4 then some (4, 0x80, 0x8F)
  else none

/-- Go `utf8.DecodeRune` / `utf8.DecodeRuneInString`: the first rune of `s` and
its width in bytes; `(RuneError, 1)` for an invalid or truncated encoding and
`(RuneError, 0)` for the empty string. -/
def decodeRune : GoString → Nat × Nat
  | [] => (RuneError, 0)
  | s0 :: t =>
    if s0 < 0x80 then (s0, 1)
    else
      match first s0 with
      | none => (RuneError, 1)
      | some (sz, lo, hi) =>
        match t with
        | [] => (RuneError, 1)
        | s1 :: t1 =>
          if s1 < lo ∨ hi < s1 then (RuneError, 1)
          else if sz ≤ 2 then (s0 % 32 * 64 + s1 % 64, 2)
          else
            match t1 with
            | [] => (RuneError, 1)
            | s2 :: t2 =>
              if s2 < 0x80 ∨ 0xBF < s2 then (RuneError, 1)
              else if sz ≤ 3 then (s0 % 16 * 4096 + s1 % 64 * 64 + s2 % 64, 3)
              else
                match t2 with
                | [] => (RuneError, 1)
                | s3 :: _ =>
                  if s3 < 0x80 ∨ 0xBF < s3 then (RuneError, 1)
                  else (s0 % 8 * 262144 + s1 % 64 * 4096 + s2 % 64 * 64 + s3 % 64, 4)

/-- Go `utf8.EncodeRune` / `utf8.AppendRune`: the UTF-8 encoding of a rune;
surrogates and values above U+10FFFF are encoded as U+FFFD. -/
def encodeRune (r : Nat) : GoString :=
  if r ≤ 0x7F then [r]
  else if r ≤ 0x7FF then [0xC0 + r / 64, 0x80 + r % 64]
  else if r > 0x10FFFF ∨ (0xD800 ≤ r ∧ r ≤ 0xDFFF) then [0xEF, 0xBF, 0xBD]
  else if r ≤ 0xFFFF then [0xE0 + r / 4096, 0x80 + r / 64 % 64, 0x80 + r % 64]
  else [0xF0 + r / 262144, 0x80 + r / 4096 % 64, 0x80 + r / 64 % 64, 0x80 + r % 64]

/-- The bytes of a string literal of the source (Go source text is UTF-8). -/
def utf8 (s : String) : GoString :=
  s.data.flatMap (fun c => encodeRune c.toNat)

/-- Go `utf8.Valid` / `utf8.ValidString`, as the loop over `DecodeRune`: no
position decodes to `(RuneError, 1)`.  The first argument bounds the number of
runes and is the length of the string. -/
def validLoop : Nat → GoString → Bool
  | 0, s => s = []
  | _, [] => true
  | fuel + 1, b :: rest =>
    let d := decodeRune (b :: rest)
    if d.1 = RuneError ∧ d.2 = 1 then false
    else validLoop fuel ((b :: rest).drop d.2)

/-- Go `utf8.ValidString`. -/
def validString (s : GoString) : Bool := validLoop s.length s

/-! ## `strconv` -/

/-- Go `int` is 64 bits wide: the value an arithmetic result wraps to. -/
def wrapInt (i : Int) : Int := (i + 2 ^ 63) % 2 ^ 64 - 2 ^ 63

/-- The largest `int`, `math.MaxInt64`. -/
def maxInt : Int := 2 ^ 63 - 1

/-- The smallest `int`, `math.MinInt64`. -/
def minInt : Int := -(2 ^ 63)

/-- The decimal digits of `n`, most significant first, put before `acc`.  The
first argument bounds the number of digits. -/
def digitsAux : Nat → Nat → GoString → GoString
  | 0, _, acc => acc
  | fuel + 1, n, acc =>
    if n < 10 then (48 + n) :: acc
    else digitsAux fuel (n / 10) ((48 + n % 10) :: acc)

/-- Go `strconv.FormatUint(n, 10)`. -/
def formatUint (n : Nat) : GoString := digitsAux (n + 1) n []

/-- Go `strconv.FormatInt(i, 10)` (also `%d` and `fmt.Println` of an `int`, and
the JSON encoding of an `int`). -/
def formatInt (i : Int) : GoString :=
  if i < 0 then 45 :: formatUint i.natAbs else formatUint i.natAbs

/-- The two errors of `strconv`: `ErrSyntax` and `ErrRange`. -/
inductive NumError where
  | errSyntax
  | errRange
deriving DecidableEq, Repr

/-- The digit loop of Go `strconv.ParseUint(s, 10, 64)`: `n` is the value read
so far.  A byte that is no digit is a syntax error; a value that does not fit
64 bits stops the loop at once with `maxUint64` and a range error. -/
def parseUintLoop : GoString → Nat → Nat × Option NumError
  | [], n => (n, none)
  | c :: rest, n =>
    if 48 ≤ c ∧ c ≤ 57 then
      if n ≥ 1844674407370955162 then (18446744073709551615, some .errRange)
      else
        let n1 := n * 10 + (c - 48)
        if n1 > 18446744073709551615 then (18446744073709551615, some .errRange)
        else parseUintLoop rest n1
    else (0, some .errSyntax)

/-- Go `strconv.ParseUint(s, 10, 64)`. -/
def parseUint (s : GoString) : Nat × Option NumError :=
  match s with
  | [] => (0, some .errSyntax)
  | _ => parseUintLoop s 0

/-- Go `strconv.ParseInt(s, 10, 64)`: on a range error the result is the
nearest bound of `int64`, together with the error. -/
def parseInt (s : GoString) : Int × Option NumError :=
  match s with
  | [] => (0, some .errSyntax)
  | c :: rest =>
    let neg := decide (c = 45)
    let digits := if c = 43 ∨ c = 45 then rest else s
    match parseUint digits with
    | (_, some .errSyntax) => (0, some .errSyntax)
    | (un, _) =>
      if ¬ neg ∧ un ≥ 2 ^ 63 then (maxInt, some .errRange)
      else if neg ∧ un > 2 ^ 63 then (minInt, some .errRange)
      else (if neg then -(un : Int) else (un : Int), none)

/-- The digit loop of the fast path of `strconv.Atoi`. -/
def atoiFastLoop : GoString → Int → Option Int
  | [], n => some n
  | c :: rest, n =>
    if 48 ≤ c ∧ c ≤ 57 then atoiFastLoop rest (n * 10 + ((c : Int) - 48))
    else none

/-- Go `strconv.Atoi`: strings of 1 to 18 bytes take the fast path, all others
go through `ParseInt(s, 10, 0)`. -/
def atoi (s : GoString) : Int × Option NumError :=
  if 0 < s.length ∧ s.length < 19 then
    match s with
    | [] => (0, some .errSyntax)
    | c :: rest =>
      let digits := if c = 45 ∨ c = 43 then rest else s
      if digits = [] then (0, some .errSyntax)
      else
        match atoiFastLoop digits 0 with
        | none => (0, some .errSyntax)
        | some n => (if c = 45 then -n else n, none)
  else parseInt s

/-! ## `encoding/json`: encoding a `[]Todo` -/

/-- A task: the struct `Todo` of the source, with its JSON field names `id`,
`task` and `completed`. -/
structure Todo where
  ID : Int
  Task : GoString
  Completed : Bool
deriving DecidableEq, Repr

/-- The digit of `"0123456789abcdef"` at index `n`. -/
def hexDigit (n : Nat) : Nat := if n < 10 then 48 + n else 87 + n

/-- The table `htmlSafeSet` of `encoding/json`: ASCII bytes that are written
as they are (everything from the space on, except the quote, the backslash and
the three characters `<`, `>`, `&`). -/
def htmlSafe (b : Nat) : Bool :=
  decide (0x20 ≤ b ∧ b ≠ 0x22 ∧ b ≠ 0x5C ∧ b ≠ 0x3C ∧ b ≠ 0x3E ∧ b ≠ 0x26)

/-- The escape that `encoding/json` writes for an ASCII byte outside
`htmlSafeSet` (as of Go 1.22, which writes backspace and form feed as `\b` and
`\f`; older versions write them as `\u0008` and `\u000c`, which decode to the
same bytes). -/
def escapeByte (b : Nat) : GoString :=
  if b = 0x5C ∨ b = 0x22 then [0x5C, b]
  else if b = 0x08 then [0x5C, 0x62]
  else if b = 0x0C then [0x5C, 0x66]
  else if b = 0x0A then [0x5C, 0x6E]
  else if b = 0x0D then [0x5C, 0x72]
  else if b = 0x09 then [0x5C, 0x74]
  else [0x5C, 0x75, 0x30, 0x30, hexDigit (b / 16), hexDigit (b % 16)]

/-- The loop of `appendString` in `encoding/json` (with HTML escaping, as
`json.Marshal` uses it): the text between the quotes.  Invalid UTF-8 is written
as the escape of U+FFFD, U+2028 and U+2029 are escaped, every other rune is
copied.  The first argument bounds the number of runes. -/
def appendStringLoop : Nat → GoString → GoString
  | 0, _ => []
  | _, [] => []
  | fuel + 1, b :: rest =>
    if b < 0x80 then
      if htmlSafe b then b :: appendStringLoop fuel rest
      else escapeByte b ++ appendStringLoop fuel rest
    else
      let d := decodeRune (b :: rest)
      if d.1 = RuneError ∧ d.2 = 1 then
        [0x5C, 0x75, 0x66, 0x66, 0x66, 0x64] ++ appendStringLoop fuel rest
      else if d.1 = 0x2028 ∨ d.1 = 0x2029 then
        [0x5C, 0x75, 0x32, 0x30, 0x32, hexDigit (d.1 % 16)]
          ++ appendStringLoop fuel ((b :: rest).drop d.2)
      else (b :: rest).take d.2 ++ appendStringLoop fuel ((b :: rest).drop d.2)

/-- The JSON encoding of a Go string (`appendString` of `encoding/json`). -/
def appendString (s : GoString) : GoString :=
  0x22 :: (appendStringLoop s.length s ++ [0x22])

/-- The JSON object written for one task by `json.MarshalIndent(todos, "", "  ")`:
an element of the top-level array, so its members are indented by four spaces
and its closing brace by two. -/
def marshalTodo (t : Todo) : GoString :=
  utf8 "\x7b\n    \"id\": " ++ formatInt t.ID
    ++ utf8 ",\n    \"task\": " ++ appendString t.Task
    ++ utf8 ",\n    \"completed\": " ++ (if t.Completed then utf8 "true" else utf8 "false")
    ++ utf8 "\n  \x7d"

/-- The elements after the first one, each preceded by a comma and a new line. -/
def marshalTail : List Todo → GoString
  | [] => []
  | t :: ts => utf8 ",\n  " ++ marshalTodo t ++ marshalTail ts

/-- Go `json.MarshalIndent(todos, "", "  ")` for a non-nil `[]Todo`; it never
fails for this type.  (A nil slice would be written as `null`; the program never
saves one: `append` and the literal `[]Todo{}` yield non-nil slices.) -/
def jsonMarshalIndent : List Todo → GoString
  | [] => utf8 "[]"
  | t :: ts => utf8 "[\n  " ++ marshalTodo t ++ marshalTail ts ++ utf8 "\n]"

/-! ## `encoding/json`: decoding into a `[]Todo` -/

/-- A JSON value as the scanner of `encoding/json` delimits it.  Strings are
held unquoted, numbers as their literal text. -/
inductive JVal where
  | null
  | bool (b : Bool)
  | num (lit : GoString)
  | str (s : GoString)
  | arr (elems : List JVal)
  | obj (members : List (GoString × JVal))

/-- The function `isSpace` of the scanner. -/
def isSpace (c : Nat) : Bool := decide (c = 0x20 ∨ c = 0x09 ∨ c = 0x0D ∨ c = 0x0A)

/-- Skip JSON white space. -/
def skipSpace : GoString → GoString
  | [] => []
  | c :: rest => if isSpace c then skipSpace rest else c :: rest

/-- The value of a hexadecimal digit. -/
def unhex (c : Nat) : Option Nat :=
  if 48 ≤ c ∧ c ≤ 57 then some (c - 48)
  else if 97 ≤ c ∧ c ≤ 102 then some (c - 97 + 10)
  else if 65 ≤ c ∧ c ≤ 70 then some (c - 65 + 10)
  else none

/-- The function `getu4` of `encoding/json`: the value of a leading escape
`\uXXXX`, if the text starts with one. -/
def getu4 : GoString → Option Nat
  | 0x5C :: 0x75 :: a :: b :: c :: d :: _ =>
    match unhex a, unhex b, unhex c, unhex d with
    | some x, some y, some z, some w => some (((x * 16 + y) * 16 + z) * 16 + w)
    | _, _, _, _ => none
  | _ => none

/-- Go `utf16.DecodeRune`: the rune of a surrogate pair, U+FFFD if the two
values are not a high and a low surrogate. -/
def utf16DecodeRune (r1 r2 : Nat) : Nat :=
  if 0xD800 ≤ r1 ∧ r1 < 0xDC00 ∧ 0xDC00 ≤ r2 ∧ r2 < 0xE000 then
    (r1 - 0xD800) * 1024 + (r2 - 0xDC00) + 0x10000
  else RuneError

/-- The byte a one-letter escape stands for (the scanner accepts exactly
these after a backslash, besides `u`). -/
def unescape (e : Nat) : Option Nat :=
  if e = 0x22 ∨ e = 0x5C ∨ e = 0x2F then some e
  else if e = 0x62 then some 0x08
  else if e = 0x66 then some 0x0C
  else if e = 0x6E then some 0x0A
  else if e = 0x72 then some 0x0D
  else if e = 0x74 then some 0x09
  else none

/-- Put bytes in front of the string of a scan result. -/
def consResult (pre : GoString) :
    Option (GoString × GoString) → Option (GoString × GoString)
  | none => none
  | some (s, rest) => some (pre ++ s, rest)

/-- A JSON string after its opening quote: the scanner's check of the syntax
and `unquote` in one pass.  The result is the unquoted string and the text
after the closing quote.  Escapes are replaced, a surrogate pair of `\u`
escapes becomes one rune, a lone surrogate and every invalid UTF-8 byte become
U+FFFD.  A control character, an unknown escape or a missing closing quote is
an error.  The first argument bounds the number of steps. -/
def scanString : Nat → GoString → Option (GoString × GoString)
  | 0, _ => none
  | _, [] => none
  | fuel + 1, c :: rest =>
    if c = 0x22 then some ([], rest)
    else if c = 0x5C then
      match rest with
      | [] => none
      | e :: rest1 =>
        if e = 0x75 then
          match getu4 (c :: rest) with
          | none => none
          | some rr =>
            let rest2 := rest1.drop 4
            if 0xD800 ≤ rr ∧ rr < 0xE000 then
              match getu4 rest2 with
              | none => consResult (encodeRune RuneError) (scanString fuel rest2)
              | some rr1 =>
                if utf16DecodeRune rr rr1 ≠ RuneError then
                  consResult (encodeRune (utf16DecodeRune rr rr1))
                    (scanString fuel (rest2.drop 6))
                else consResult (encodeRune RuneError) (scanString fuel rest2)
            else consResult (encodeRune rr) (scanString fuel rest2)
        else
          match unescape e with
          | none => none
          | some b => consResult [b] (scanString fuel rest1)
    else if c < 0x20 then none
    else if c < 0x80 then consResult [c] (scanString fuel rest)
    else
      let d := decodeRune (c :: rest)
      consResult (encodeRune d.1) (scanString fuel ((c :: rest).drop d.2))

/-- Split off the longest run of decimal digits. -/
def spanDigits : GoString → GoString × GoString
  | [] => ([], [])
  | c :: rest =>
    if 48 ≤ c ∧ c ≤ 57 then ((spanDigits rest).1.cons c, (spanDigits rest).2)
    else ([], c :: rest)

/-- The integer part of a JSON number: a single `0`, or a run of digits that
does not start with `0`. -/
def scanIntPart : GoString → Option (GoString × GoString)
  | [] => none
  | c :: rest =>
    if c = 48 then some ([48], rest)
    else if 49 ≤ c ∧ c ≤ 57 then some (c :: (spanDigits rest).1, (spanDigits rest).2)
    else none

/-- The optional fraction of a JSON number: a dot and at least one digit. -/
def scanFrac : GoString → Option (GoString × GoString)
  | 0x2E :: rest =>
    match spanDigits rest with
    | ([], _) => none
    | (ds, rest1) => some (0x2E :: ds, rest1)
  | s => some ([], s)

/-- The optional exponent of a JSON number: `e` or `E`, an optional sign and
at least one digit. -/
def scanExp : GoString → Option (GoString × GoString)
  | [] => some ([], [])
  | c :: rest =>
    if c = 0x65 ∨ c = 0x45 then
      match rest with
      | [] => none
      | s :: rest1 =>
        if s = 0x2B ∨ s = 0x2D then
          match spanDigits rest1 with
          | ([], _) => none
          | (ds, rest2) => some (c :: s :: ds, rest2)
        else
          match spanDigits rest with
          | ([], _) => none
          | (ds, rest2) => some (c :: ds, rest2)
    else some ([], c :: rest)

/-- A JSON number without its sign: integer part, optional fraction, optional
exponent. -/
def scanUnsigned (s : GoString) : Option (GoString × GoString) :=
  match scanIntPart s with
  | none => none
  | some (ip, r1) =>
    match scanFrac r1 with
    | none => none
    | some (fp, r2) =>
      match scanExp r2 with
      | none => none
      | some (ep, r3) => some (ip ++ fp ++ ep, r3)

/-- A JSON number as the scanner accepts it (an optional minus sign, then the
unsigned number): its literal text and the text after it. -/
def scanNumber : GoString → Option (GoString × GoString)
  | [] => none
  | c :: t =>
    if c = 0x2D then
      match scanUnsigned t with
      | none => none
      | some (lit, rest) => some (0x2D :: lit, rest)
    else scanUnsigned (c :: t)

/-- Strip an expected literal text from the front. -/
def stripLit : GoString → GoString → Option GoString
  | [], s => some s
  | _ :: _, [] => none
  | l :: ls, c :: rest => if l = c then stripLit ls rest else none

/-- The elements of an array after the first one, up to the closing bracket:
each is preceded by a comma.  `pv` scans one value; the first argument bounds
the number of elements. -/
def parseArrayRest (pv : GoString → Option (JVal × GoString)) :
    Nat → GoString → Option (List JVal × GoString)
  | 0, _ => none
  | fuel + 1, s =>
    match skipSpace s with
    | 0x5D :: rest => some ([], rest)
    | 0x2C :: rest =>
      match pv (skipSpace rest) with
      | none => none
      | some (v, rest1) =>
        match parseArrayRest pv fuel rest1 with
        | none => none
        | some (vs, rest2) => some (v :: vs, rest2)
    | _ => none

/-- One member of an object, `"key": value`, at the start of the text. -/
def parseMember (pv : GoString → Option (JVal × GoString)) (s : GoString) :
    Option ((GoString × JVal) × GoString) :=
  match s with
  | 0x22 :: rest =>
    match scanString rest.length rest with
    | none => none
    | some (key, rest1) =>
      match skipSpace rest1 with
      | 0x3A :: rest2 =>
        match pv (skipSpace rest2) with
        | none => none
        | some (v, rest3) => some ((key, v), rest3)
      | _ => none
  | _ => none

/-- The members of an object after the first one, up to the closing brace. -/
def parseObjectRest (pv : GoString → Option (JVal × GoString)) :
    Nat → GoString → Option (List (GoString × JVal) × GoString)
  | 0, _ => none
  | fuel + 1, s =>
    match skipSpace s with
    | 0x7D :: rest => some ([], rest)
    | 0x2C :: rest =>
      match parseMember pv (skipSpace rest) with
      | none => none
      | some (m, rest1) =>
        match parseObjectRest pv fuel rest1 with
        | none => none
        | some (ms, rest2) => some (m :: ms, rest2)
    | _ => none

/-- One JSON value at the start of the text (no leading white space), and the
text after it.  The first argument is the nesting that is still allowed: an
array or object needs it to be at least 2, so that with 10001 at the top the
nesting limit is the scanner's `maxNestingDepth = 10000`. -/
def parseValue : Nat → GoString → Option (JVal × GoString)
  | 0, _ => none
  | _, [] => none
  | depth + 1, c :: rest =>
    if c = 0x5B then
      if depth = 0 then none
      else
        match skipSpace rest with
        | 0x5D :: rest1 => some (.arr [], rest1)
        | s1 =>
          match parseValue depth s1 with
          | none => none
          | some (v, rest1) =>
            match parseArrayRest (parseValue depth) rest1.length.succ rest1 with
            | none => none
            | some (vs, rest2) => some (.arr (v :: vs), rest2)
    else if c = 0x7B then
      if depth = 0 then none
      else
        match skipSpace rest with
        | 0x7D :: rest1 => some (.obj [], rest1)
        | s1 =>
          match parseMember (parseValue depth) s1 with
          | none => none
          | some (m, rest1) =>
            match parseObjectRest (parseValue depth) rest1.length.succ rest1 with
            | none => none
            | some (ms, rest2) => some (.obj (m :: ms), rest2)
    else if c = 0x22 then
      match scanString rest.length rest with
      | none => none
      | some (s, rest1) => some (.str s, rest1)
    else if c = 0x74 then (stripLit (utf8 "rue") rest).map (fun r => (.bool true, r))
    else if c = 0x66 then (stripLit (utf8 "alse") rest).map (fun r => (.bool false, r))
    else if c = 0x6E then (stripLit (utf8 "ull") rest).map (fun r => (.null, r))
    else
      match scanNumber (c :: rest) with
      | none => none
      | some (lit, rest1) => some (.num lit, rest1)

/-- The whole text as one JSON value with white space around it: what
`checkValid` accepts, delimited. -/
def jsonParse (data : GoString) : Option JVal :=
  match parseValue 10001 (skipSpace data) with
  | none => none
  | some (v, rest) => if skipSpace rest = [] then some v else none

/-- The fields of `Todo`. -/
inductive Field where
  | id
  | task
  | completed
deriving DecidableEq, Repr

/-- The function `foldName` of `encoding/json` as far as it matters for names
made of ASCII letters: ASCII letters are put in upper case; of all other runes
only U+017F and U+212A fold to an ASCII letter (`S` and `K`); `none` stands for
a folded name that has a rune outside ASCII. -/
def foldName : Nat → GoString → Option GoString
  | 0, _ => some []
  | _, [] => some []
  | fuel + 1, c :: rest =>
    if c < 0x80 then
      (foldName fuel rest).map (fun r => (if 97 ≤ c ∧ c ≤ 122 then c - 32 else c) :: r)
    else
      let d := decodeRune (c :: rest)
      if d.1 = 0x17F then (foldName fuel ((c :: rest).drop d.2)).map (fun r => 0x53 :: r)
      else if d.1 = 0x212A then (foldName fuel ((c :: rest).drop d.2)).map (fun r => 0x4B :: r)
      else none

/-- The field an object key selects: the field with exactly this JSON name,
else the one whose name matches it under case folding, else none. -/
def fieldOf (key : GoString) : Option Field :=
  if key = utf8 "id" then some .id
  else if key = utf8 "task" then some .task
  else if key = utf8 "completed" then some .completed
  else
    match foldName key.length key with
    | none => none
    | some k =>
      if k = utf8 "ID" then some .id
      else if k = utf8 "TASK" then some .task
      else if k = utf8 "COMPLETED" then some .completed
      else none

/-- Store one member of a JSON object into a `Todo`.  An unknown key is
skipped, `null` leaves the field as it is, a value of the wrong JSON type or a
number that is no `int` is an error. -/
def setField (t : Todo) (m : GoString × JVal) : Option Todo :=
  match fieldOf m.1 with
  | none => some t
  | some .id =>
    match m.2 with
    | .null => some t
    | .num lit =>
      match parseInt lit with
      | (i, none) => some { t with ID := i }
      | _ => none
    | _ => none
  | some .task =>
    match m.2 with
    | .null => some t
    | .str s => some { t with Task := s }
    | _ => none
  | some .completed =>
    match m.2 with
    | .null => some t
    | .bool b => some { t with Completed := b }
    | _ => none

/-- Store the members of an object one after the other (a later duplicate
key overwrites). -/
def setFields : Todo → List (GoString × JVal) → Option Todo
  | t, [] => some t
  | t, m :: ms =>
    match setField t m with
    | none => none
    | some t1 => setFields t1 ms

/-- Decode one array element into a fresh (zero) `Todo`. -/
def decodeTodo : JVal → Option Todo
  | .null => some ⟨0, [], false⟩
  | .obj members => setFields ⟨0, [], false⟩ members
  | _ => none

/-- Decode the elements of an array. -/
def decodeElems : List JVal → Option (List Todo)
  | [] => some []
  | v :: vs =>
    match decodeTodo v, decodeElems vs with
    | some t, some ts => some (t :: ts)
    | _, _ => none

/-- Go `json.Unmarshal(data, &todos)` for `var todos []Todo`: the decoded
collection, or `none` when `Unmarshal` returns an error (a syntax error or a
value of the wrong type).  The error's text is not part of the embedding. -/
def jsonUnmarshal (data : GoString) : Option (List Todo) :=
  match jsonParse data with
  | none => none
  | some .null => some []
  | some (.arr elems) => decodeElems elems
  | some _ => none

/-! ## The program -/

/-- What one call of `fmt.Println` or `fmt.Printf` put on standard output. -/
inductive Printed where
  /-- The bytes written by the call, the final new line included. -/
  | text (s : GoString)
  /-- The call `fmt.Println("Fehler beim Laden der Aufgaben:", err)`; the text
  of the decoder's error is not part of the embedding. -/
  | loadError
deriving DecidableEq, Repr

/-- The outside world of one run: the content of `todos.json` (`none` when
`ioutil.ReadFile` fails, as it does for an absent file) and everything printed
so far.  `ioutil.WriteFile` is taken to succeed. -/
structure World where
  file : Option GoString
  out : List Printed
deriving DecidableEq, Repr

/-- Go `fmt.Println` of operands that are already joined by spaces. -/
def println (s : GoString) (w : World) : World :=
  { w with out := w.out ++ [Printed.text (s ++ [10])] }

/-- Source `loadTodos`: the stored collection; empty, with a message, when the
file cannot be read or cannot be decoded.  Nothing is written. -/
def loadTodos (w : World) : List Todo × World :=
  match w.file with
  | none => ([], println (utf8 "Keine Aufgaben gefunden. Beginne mit einer leeren Liste.") w)
  | some data =>
    match jsonUnmarshal data with
    | none => ([], { w with out := w.out ++ [Printed.loadError] })
    | some todos => (todos, w)

/-- Source `saveTodos`: the file becomes the indented JSON text of the
collection (`json.MarshalIndent` has no error for a `[]Todo`). -/
def saveTodos (todos : List Todo) (w : World) : World :=
  { w with file := some (jsonMarshalIndent todos) }

/-- Source `findHighestID`: the loop starts from 0 and keeps the largest id
seen. -/
def findHighestID (todos : List Todo) : Int :=
  todos.foldl (fun highestID todo => if todo.ID > highestID then todo.ID else highestID) 0

/-- Lines 72 to 75 of `addTodoTask`: the collection that is handed to
`saveTodos`.  The new id is `findHighestID(todos) + 1` in `int` arithmetic. -/
def addTodo (task : GoString) (todos : List Todo) : List Todo :=
  let newID := wrapInt (findHighestID todos + 1)
  let newTodo : Todo := { ID := newID, Task := task, Completed := false }
  todos ++ [newTodo]

/-- Source `addTodoTask`. -/
def addTodoTask (task : GoString) (w : World) : World :=
  let loaded := loadTodos w
  println (utf8 "Aufgabe hinzugefügt: " ++ task) (saveTodos (addTodo task loaded.1) loaded.2)

/-- The line `viewTodoList` prints for one task:
`fmt.Printf("ID: %d, Aufgabe: %s, Status: %s\n", ...)`. -/
def taskLine (todo : Todo) : GoString :=
  utf8 "ID: " ++ formatInt todo.ID ++ utf8 ", Aufgabe: " ++ todo.Task
    ++ utf8 ", Status: " ++ (if todo.Completed then utf8 "erledigt" else utf8 "offen")
    ++ [10]

/-- Source `viewTodoList`. -/
def viewTodoList (w : World) : World :=
  let loaded := loadTodos w
  let w1 := println (utf8 "Aufgabenliste:") loaded.2
  { w1 with out := w1.out ++ loaded.1.map (fun todo => Printed.text (taskLine todo)) }

/-- The loop of `updateTodoTask`: the description of the first task with the
given id is replaced and the loop stops; the flag tells whether one was
found. -/
def updateLoop (id : Int) (task : GoString) : List Todo → List Todo × Bool
  | [] => ([], false)
  | todo :: rest =>
    if todo.ID = id then ({ todo with Task := task } :: rest, true)
    else ((todo :: (updateLoop id task rest).1), (updateLoop id task rest).2)

/-- The line printed when no task has the id:
`fmt.Println("Aufgabe mit ID", id, "nicht gefunden.")`. -/
def notFoundLine (id : Int) : GoString :=
  utf8 "Aufgabe mit ID " ++ formatInt id ++ utf8 " nicht gefunden."

/-- Source `updateTodoTask`. -/
def updateTodoTask (id : Int) (task : GoString) (w : World) : World :=
  let loaded := loadTodos w
  let r := updateLoop id task loaded.1
  if r.2 then println (utf8 "Aufgabe aktualisiert: " ++ task) (saveTodos r.1 loaded.2)
  else println (notFoundLine id) loaded.2

/-- The loop of `deleteTodoTask`: tasks with another id are appended to
`newTodos`, a task with the id sets `found`. -/
def deleteLoop (id : Int) (todos : List Todo) : List Todo × Bool :=
  todos.foldl
    (fun (acc : List Todo × Bool) todo =>
      if todo.ID ≠ id then (acc.1 ++ [todo], acc.2) else (acc.1, true))
    ([], false)

/-- Source `deleteTodoTask`. -/
def deleteTodoTask (id : Int) (w : World) : World :=
  let loaded := loadTodos w
  let r := deleteLoop id loaded.1
  if r.2 then println (utf8 "Aufgabe gelöscht: " ++ formatInt id) (saveTodos r.1 loaded.2)
  else println (notFoundLine id) loaded.2

/-- Source `printUsage`. -/
def printUsage (w : World) : World :=
  println (utf8 "'view': Alle Aufgaben anzeigen")
    (println (utf8 "'delete <ID>': Eine Aufgabe löschen")
      (println (utf8 "'update <ID> <neuer Text>': Eine vorhandene Aufgabe aktualisieren")
        (println (utf8 "'add <Aufgabe>': Eine neue Aufgabe hinzufügen")
          (println (utf8 "Verwendung:") w))))

/-- Source `main`; `args` is `os.Args[1:]`.  The error of `strconv.Atoi` is
dropped, only its value is used. -/
def main (args : List GoString) (w : World) : World :=
  match args with
  | [] => printUsage w
  | command :: rest =>
    if command = utf8 "add" then
      match rest with
      | [] => println (utf8 "Bitte eine Aufgabe eingeben, die hinzugefügt werden soll.") w
      | task :: _ => addTodoTask task w
    else if command = utf8 "update" then
      match rest with
      | idArg :: task :: _ => updateTodoTask (atoi idArg).1 task w
      | _ => println (utf8 "Bitte eine ID und die neue Aufgabe eingeben.") w
    else if command = utf8 "delete" then
      match rest with
      | [] => println (utf8 "Bitte eine ID für die zu löschende Aufgabe eingeben.") w
      | idArg :: _ => deleteTodoTask (atoi idArg).1 w
    else if command = utf8 "view" then viewTodoList w
    else println (utf8 "Ungültiger Befehl. Verwende 'view', 'add', 'update' oder 'delete'.") w

/-! ## Notions of the specification -/

/-- The data-model invariant: all ids of the collection are unique and
positive. -/
def UniquePositive (todos : List Todo) : Prop :=
  (todos.map (fun t => t.ID)).Nodup ∧ ∀ t ∈ todos, 0 < t.ID

/-- The expression `max(existing ids, default 0)`: the greatest of the ids, and
0 when there is none. -/
def maxOrDefault : List Int → Int
  | [] => 0
  | i :: rest => rest.foldl max i

/-- The greatest of 0 and all the ids. -/
def maxWithZero (todos : List Todo) : Int :=
  (todos.map (fun t => t.ID)).foldr max 0

/-- A stored collection whose only task has the largest `int` as its id. -/
def worldMaxID : World :=
  { file := some (utf8 "[\x7b\"id\":9223372036854775807,\"task\":\"a\",\"completed\":false\x7d]"),
    out := [] }

/-- A stored collection whose only task has a negative id. -/
def worldNegID : World :=
  { file := some (utf8 "[\x7b\"id\":-5,\"task\":\"a\",\"completed\":false\x7d]"),
    out := [] }

/-- A store of three tasks with the ids 1, 2 and 3. -/
def worldThree : World :=
  { file := some (utf8 ("[\x7b\"id\":1,\"task\":\"Buy milk\",\"completed\":false\x7d,"
      ++ "\x7b\"id\":2,\"task\":\"Walk dog\",\"completed\":true\x7d,"
      ++ "\x7b\"id\":3,\"task\":\"Read book\",\"completed\":false\x7d]")),
    out := [] }

/-- A store whose file is no JSON array of tasks (it holds an object). -/
def worldCorrupt : World :=
  { file := some (utf8 "\x7b\"id\": 1\x7d"), out := [] }

/-- Run the command `add` once for every description of the list, in order,
each run loading and saving the file. -/
def runAdds (descs : List GoString) (w : World) : World :=
  descs.foldl (fun w d => addTodoTask d w) w

/-- The tasks with the ids `1, 2, ...` in this order, the given descriptions
and `completed = false`. -/
def numbered (descs : List GoString) : List Todo :=
  descs.enum.map (fun p => { ID := (p.1 : Int) + 1, Task := p.2, Completed := false })

/-- The value of a run of decimal digits read after the value `a`. -/
def decValue (ds : GoString) (a : Nat) : Nat := ds.foldl (fun v c => v * 10 + (c - 48)) a

/-- Every byte of the text is a decimal digit. -/
def AllDigits (ds : GoString) : Prop := ∀ c ∈ ds, 48 ≤ c ∧ c ≤ 57

/-- The integer that a decimal text denotes: an optional sign `+` or `-` and
then at least one digit, nothing else. -/
def decimalValue (s : GoString) : Option Int :=
  match s with
  | [] => none
  | c :: rest =>
    let ds := if c = 43 ∨ c = 45 then rest else s
    if ds ≠ [] ∧ ds.all (fun x => decide (48 ≤ x ∧ x ≤ 57)) = true then
      some (if c = 45 then -(decValue ds 0 : Int) else (decValue ds 0 : Int))
    else none

/-- What the value of a failed conversion of the text `s` is: 0 with a syntax
error; with a range error the bound of `int` on the side of the sign of the
text. -/
def ErrorValue (s : GoString) (r : Int × Option NumError) : Prop :=
  (r.2 = some NumError.errSyntax → r.1 = 0)
  ∧ (r.2 = some NumError.errRange → r.1 = if s.head? = some 45 then minInt else maxInt)

/-- The JSON object that stands for a task. -/
def todoVal (t : Todo) : JVal :=
  .obj [(utf8 "id", .num (formatInt t.ID)), (utf8 "task", .str t.Task),
    (utf8 "completed", .bool t.Completed)]

/-- The string with every byte that does not start a valid UTF-8 encoding
replaced by the encoding of U+FFFD.  The first argument bounds the number of
runes. -/
def coerceLoop : Nat → GoString → GoString
  | 0, _ => []
  | _, [] => []
  | fuel + 1, b :: rest =>
    let d := decodeRune (b :: rest)
    if d.1 = RuneError ∧ d.2 = 1 then [0xEF, 0xBF, 0xBD] ++ coerceLoop fuel rest
    else (b :: rest).take d.2 ++ coerceLoop fuel ((b :: rest).drop d.2)

/-- The description as it is stored: invalid UTF-8 bytes replaced by U+FFFD. -/
def toValidUTF8 (s : GoString) : GoString := coerceLoop s.length s

/-- The task as it is stored: its description with invalid UTF-8 replaced. -/
def storedTodo (t : Todo) : Todo := { t with Task := toValidUTF8 t.Task }

/-- A task whose description is the single byte `0xFF`, which is not valid
UTF-8 (as `add` receives it from the command line). -/
def todoInvalidUTF8 : Todo := { ID := 1, Task := [0xFF], Completed := false }

/-! ## Basic facts about the embedding -/

theorem println_file (s : GoString) (w : World) : (println s w).file = w.file := rfl

theorem saveTodos_file (todos : List Todo) (w : World) :
    (saveTodos todos w).file = some (jsonMarshalIndent todos) := rfl

theorem loadTodos_file (w : World) : (loadTodos w).2.file = w.file := by
  unfold loadTodos
  split
  · rfl
  · split <;> simp_all

theorem foldr_max_comm (l : List Int) (a t : Int) :
    l.foldr max (max a t) = max t (l.foldr max a) := by
  induction l with
  | nil => simp [max_comm]
  | cons x xs ih => simp only [List.foldr_cons, ih, max_left_comm]

theorem foldl_highest (todos : List Todo) (a : Int) :
    todos.foldl (fun highestID todo => if todo.ID > highestID then todo.ID else highestID) a
      = (todos.map (fun t => t.ID)).foldr max a := by
  induction todos generalizing a with
  | nil => rfl
  | cons t ts ih =>
    have hstep : (if t.ID > a then t.ID else a) = max a t.ID := by
      by_cases h : t.ID > a
      · rw [if_pos h, max_eq_right (le_of_lt h)]
      · rw [if_neg h, max_eq_left (not_lt.mp h)]
    simp only [List.foldl_cons, List.map_cons, List.foldr_cons, hstep, ih, foldr_max_comm]

theorem findHighestID_eq (todos : List Todo) : findHighestID todos = maxWithZero todos :=
  foldl_highest todos 0

theorem maxWithZero_nonneg (todos : List Todo) : 0 ≤ maxWithZero todos := by
  induction todos with
  | nil => simp [maxWithZero]
  | cons t ts ih =>
    simp only [maxWithZero, List.map_cons, List.foldr_cons] at ih ⊢
    exact le_max_of_le_right ih

theorem le_maxWithZero (todos : List Todo) : ∀ t ∈ todos, t.ID ≤ maxWithZero todos := by
  induction todos with
  | nil => intro t ht; cases ht
  | cons x xs ih =>
    intro t ht
    simp only [maxWithZero, List.map_cons, List.foldr_cons]
    rcases List.mem_cons.mp ht with h | h
    · subst h; exact le_max_left _ _
    · exact le_max_of_le_right (ih t h)

theorem maxWithZero_lt (todos : List Todo) (b : Int) (hb : 0 < b)
    (h : ∀ t ∈ todos, t.ID < b) : maxWithZero todos < b := by
  induction todos with
  | nil => simpa [maxWithZero] using hb
  | cons x xs ih =>
    simp only [maxWithZero, List.map_cons, List.foldr_cons]
    exact max_lt (h x (List.mem_cons_self _ _))
      (ih (fun t ht => h t (List.mem_cons_of_mem _ ht)))

theorem wrapInt_of_inRange (i : Int) (h1 : minInt ≤ i) (h2 : i ≤ maxInt) : wrapInt i = i := by
  unfold wrapInt
  unfold minInt at h1
  unfold maxInt at h2
  omega

theorem addTodo_eq (task : GoString) (todos : List Todo) (h : ∀ t ∈ todos, t.ID < maxInt) :
    addTodo task todos
      = todos ++ [{ ID := maxWithZero todos + 1, Task := task, Completed := false }] := by
  have h0 := maxWithZero_nonneg todos
  have h1 := maxWithZero_lt todos maxInt (by decide) h
  unfold addTodo
  rw [findHighestID_eq, wrapInt_of_inRange]
  · unfold minInt; omega
  · omega

theorem addTodoTask_file (task : GoString) (w : World) :
    (addTodoTask task w).file = some (jsonMarshalIndent (addTodo task (loadTodos w).1)) := rfl

theorem updateTodoTask_file (id : Int) (task : GoString) (w : World) :
    (updateTodoTask id task w).file
      = if (updateLoop id task (loadTodos w).1).2
        then some (jsonMarshalIndent (updateLoop id task (loadTodos w).1).1)
        else w.file := by
  unfold updateTodoTask
  by_cases h : (updateLoop id task (loadTodos w).1).2 = true
  · simp [h, println_file, saveTodos_file]
  · simp [h, println_file, loadTodos_file]

theorem deleteTodoTask_file (id : Int) (w : World) :
    (deleteTodoTask id w).file
      = if (deleteLoop id (loadTodos w).1).2
        then some (jsonMarshalIndent (deleteLoop id (loadTodos w).1).1)
        else w.file := by
  unfold deleteTodoTask
  by_cases h : (deleteLoop id (loadTodos w).1).2 = true
  · simp [h, println_file, saveTodos_file]
  · simp [h, println_file, loadTodos_file]

theorem deleteLoop_foldl (id : Int) (todos : List Todo) (acc : List Todo) (b : Bool) :
    todos.foldl
        (fun (acc : List Todo × Bool) todo =>
          if todo.ID ≠ id then (acc.1 ++ [todo], acc.2) else (acc.1, true))
        (acc, b)
      = (acc ++ todos.filter (fun t => decide (t.ID ≠ id)),
          b || todos.any (fun t => decide (t.ID = id))) := by
  induction todos generalizing acc b with
  | nil => simp
  | cons t ts ih =>
    rw [List.foldl_cons]
    by_cases h : t.ID = id
    · rw [if_neg (not_not.mpr h), ih]
      simp [h]
    · rw [if_pos h, ih]
      simp [h]

theorem deleteLoop_eq (id : Int) (todos : List Todo) :
    deleteLoop id todos
      = (todos.filter (fun t => decide (t.ID ≠ id)), todos.any (fun t => decide (t.ID = id))) := by
  unfold deleteLoop
  rw [deleteLoop_foldl]
  simp

theorem updateLoop_ids (id : Int) (task : GoString) (todos : List Todo) :
    (updateLoop id task todos).1.map (fun t => t.ID) = todos.map (fun t => t.ID) := by
  induction todos with
  | nil => rfl
  | cons t ts ih =>
    unfold updateLoop
    by_cases h : t.ID = id
    · simp [h]
    · simp [h, ih]

theorem updateLoop_missing (id : Int) (task : GoString) (todos : List Todo)
    (h : ∀ t ∈ todos, t.ID ≠ id) : updateLoop id task todos = (todos, false) := by
  induction todos with
  | nil => rfl
  | cons t ts ih =>
    unfold updateLoop
    have ht : t.ID ≠ id := h t (List.mem_cons_self _ _)
    have hts := ih (fun x hx => h x (List.mem_cons_of_mem _ hx))
    simp [ht, hts]

theorem updateLoop_found (id : Int) (task : GoString) (todos : List Todo)
    (h : ∃ t ∈ todos, t.ID = id) :
    ∃ (k : Nat) (old : Todo),
      todos[k]? = some old ∧ old.ID = id
      ∧ (∀ j t, j < k → todos[j]? = some t → t.ID ≠ id)
      ∧ updateLoop id task todos = (todos.set k { old with Task := task }, true) := by
  induction todos with
  | nil => obtain ⟨t, ht, _⟩ := h; cases ht
  | cons x xs ih =>
    by_cases hx : x.ID = id
    · refine ⟨0, x, by simp, hx, ?_, ?_⟩
      · intro j t hj; omega
      · unfold updateLoop; simp [hx]
    · have hex : ∃ t ∈ xs, t.ID = id := by
        obtain ⟨t, ht, hid⟩ := h
        rcases List.mem_cons.mp ht with h1 | h1
        · subst h1; exact absurd hid hx
        · exact ⟨t, h1, hid⟩
      obtain ⟨k, old, hk, hold, hbefore, hupd⟩ := ih hex
      refine ⟨k + 1, old, by simpa using hk, hold, ?_, ?_⟩
      · intro j t hj hget
        cases j with
        | zero =>
          simp only [List.getElem?_cons_zero, Option.some.injEq] at hget
          subst hget; exact hx
        | succ j =>
          simp only [List.getElem?_cons_succ] at hget
          exact hbefore j t (by omega) hget
      · unfold updateLoop
        simp [hx, hupd]

theorem filter_length_of_nodup (i : Int) (todos : List Todo)
    (hu : (todos.map (fun t => t.ID)).Nodup) (hi : ∃ t ∈ todos, t.ID = i) :
    (todos.filter (fun t => decide (t.ID ≠ i))).length + 1 = todos.length := by
  induction todos with
  | nil => obtain ⟨t, ht, _⟩ := hi; cases ht
  | cons x xs ih =>
    simp only [List.map_cons, List.nodup_cons] at hu
    by_cases hx : x.ID = i
    · have hall : ∀ t ∈ xs, t.ID ≠ i := by
        intro t ht hti
        apply hu.1
        rw [hx, ← hti]
        exact List.mem_map_of_mem _ ht
      have hfilter : xs.filter (fun t => decide (t.ID ≠ i)) = xs := by
        apply List.filter_eq_self.mpr
        intro t ht
        simpa using hall t ht
      rw [List.filter_cons, if_neg (by simp [hx]), hfilter]
      rfl
    · have hex : ∃ t ∈ xs, t.ID = i := by
        obtain ⟨t, ht, hid⟩ := hi
        rcases List.mem_cons.mp ht with h1 | h1
        · subst h1; exact absurd hid hx
        · exact ⟨t, h1, hid⟩
      have hlen := ih hu.2 hex
      rw [List.filter_cons, if_pos (by simp [hx])]
      simp only [List.length_cons]
      omega

/-! ## C1: what `add` writes -/

set_option maxRecDepth 100000 in
/-- C1, as stated, fails.  On the stored collection whose only id is
`2^63 - 1` the command `add b` writes a second task with the id `-2^63`, not
`max + 1 = 2^63`; on the stored collection whose only id is `-5` it writes the
id 1, not `max + 1 = -4`. -/
theorem add_id_counterexample :
    ((loadTodos worldMaxID).1 = [⟨9223372036854775807, utf8 "a", false⟩]
      ∧ (addTodoTask (utf8 "b") worldMaxID).file
          = some (jsonMarshalIndent [⟨9223372036854775807, utf8 "a", false⟩,
              ⟨-9223372036854775808, utf8 "b", false⟩])
      ∧ (addTodoTask (utf8 "b") worldMaxID).file
          ≠ some (jsonMarshalIndent ((loadTodos worldMaxID).1 ++
              [⟨maxOrDefault ((loadTodos worldMaxID).1.map (fun t => t.ID)) + 1,
                utf8 "b", false⟩])))
    ∧ ((loadTodos worldNegID).1 = [⟨-5, utf8 "a", false⟩]
      ∧ (addTodoTask (utf8 "b") worldNegID).file
          = some (jsonMarshalIndent [⟨-5, utf8 "a", false⟩, ⟨1, utf8 "b", false⟩])
      ∧ (addTodoTask (utf8 "b") worldNegID).file
          ≠ some (jsonMarshalIndent ((loadTodos worldNegID).1 ++
              [⟨maxOrDefault ((loadTodos worldNegID).1.map (fun t => t.ID)) + 1,
                utf8 "b", false⟩]))) := by
  decide

/-- C1, amended: for every stored collection whose ids are all below
`2^63 - 1` and every description, `add` writes back the old collection,
unchanged and in the same order, followed by exactly one new task with the
given description, `completed = false` and the id `1 +` the greatest of 0 and
the existing ids; on an empty collection the new id is 1. -/
theorem addTodoTask_writes (w : World) (todos : List Todo) (task : GoString)
    (hl : (loadTodos w).1 = todos) (h : ∀ t ∈ todos, t.ID < maxInt) :
    (addTodoTask task w).file
        = some (jsonMarshalIndent
            (todos ++ [{ ID := maxWithZero todos + 1, Task := task, Completed := false }]))
    ∧ (∀ t ∈ todos, t.ID < maxWithZero todos + 1)
    ∧ (todos = [] → maxWithZero todos + 1 = 1) := by
  refine ⟨?_, ?_, ?_⟩
  · rw [addTodoTask_file, hl, addTodo_eq task todos h]
  · intro t ht
    have := le_maxWithZero todos t ht
    omega
  · intro he
    subst he
    rfl

set_option maxRecDepth 100000 in
/-- C1, amended, applied to the store with the ids 1, 2, 3 and the empty
description: the new id is 4. -/
theorem addTodoTask_writes_witness :
    (addTodoTask [] worldThree).file
        = some (jsonMarshalIndent
            ([⟨1, utf8 "Buy milk", false⟩, ⟨2, utf8 "Walk dog", true⟩,
              ⟨3, utf8 "Read book", false⟩]
              ++ [{ ID := maxWithZero [⟨1, utf8 "Buy milk", false⟩, ⟨2, utf8 "Walk dog", true⟩,
                    ⟨3, utf8 "Read book", false⟩] + 1,
                    Task := [], Completed := false }]))
    ∧ maxWithZero [⟨1, utf8 "Buy milk", false⟩, ⟨2, utf8 "Walk dog", true⟩,
        ⟨3, utf8 "Read book", false⟩] + 1 = 4 :=
  ⟨(addTodoTask_writes worldThree
      [⟨1, utf8 "Buy milk", false⟩, ⟨2, utf8 "Walk dog", true⟩, ⟨3, utf8 "Read book", false⟩]
      [] (by decide) (by decide)).1, by decide⟩

/-! ## C2: the invariant of the store -/

set_option maxRecDepth 100000 in
/-- C2, as stated, fails for `add`.  The stored collection whose only id is
`2^63 - 1` has unique positive ids, and the collection `add b` writes has the
negative id `-2^63`. -/
theorem invariant_add_counterexample :
    UniquePositive (loadTodos worldMaxID).1
    ∧ (addTodoTask (utf8 "b") worldMaxID).file
        = some (jsonMarshalIndent (addTodo (utf8 "b") (loadTodos worldMaxID).1))
    ∧ addTodo (utf8 "b") (loadTodos worldMaxID).1
        = [⟨9223372036854775807, utf8 "a", false⟩, ⟨-9223372036854775808, utf8 "b", false⟩]
    ∧ ¬ UniquePositive (addTodo (utf8 "b") (loadTodos worldMaxID).1) := by
  unfold UniquePositive
  decide

/-- C2, amended: unique positive ids are an invariant of the store.  The
empty collection has it; if the stored collection has it then so has the
collection written by `update` and by `delete` (any id, any description), and
so has the collection written by `add` when every stored id is below
`2^63 - 1`. -/
theorem invariant_preserved (w : World) (todos : List Todo)
    (hl : (loadTodos w).1 = todos) (h : UniquePositive todos) :
    UniquePositive []
    ∧ (∀ task, (∀ t ∈ todos, t.ID < maxInt) →
        (addTodoTask task w).file = some (jsonMarshalIndent (addTodo task todos))
        ∧ UniquePositive (addTodo task todos))
    ∧ (∀ id task,
        (updateTodoTask id task w).file
            = (if (updateLoop id task todos).2
                then some (jsonMarshalIndent (updateLoop id task todos).1) else w.file)
        ∧ UniquePositive (updateLoop id task todos).1)
    ∧ (∀ id,
        (deleteTodoTask id w).file
            = (if (deleteLoop id todos).2
                then some (jsonMarshalIndent (deleteLoop id todos).1) else w.file)
        ∧ UniquePositive (deleteLoop id todos).1) := by
  obtain ⟨hnd, hpos⟩ := h
  refine ⟨⟨by simp, by simp⟩, ?_, ?_, ?_⟩
  · intro task hlt
    refine ⟨by rw [addTodoTask_file, hl], ?_⟩
    rw [addTodo_eq task todos hlt]
    constructor
    · rw [List.map_append, List.nodup_append]
      refine ⟨hnd, by simp, ?_⟩
      intro a ha hb
      simp only [List.map_cons, List.map_nil, List.mem_singleton] at hb
      obtain ⟨t, ht, rfl⟩ := List.mem_map.mp ha
      have := le_maxWithZero todos t ht
      omega
    · intro t ht
      rcases List.mem_append.mp ht with h1 | h1
      · exact hpos t h1
      · simp only [List.mem_singleton] at h1
        subst h1
        have := maxWithZero_nonneg todos
        show 0 < maxWithZero todos + 1
        omega
  · intro id task
    refine ⟨by rw [updateTodoTask_file, hl], ?_⟩
    constructor
    · rw [updateLoop_ids]; exact hnd
    · intro t ht
      have hmem : t.ID ∈ (updateLoop id task todos).1.map (fun t => t.ID) :=
        List.mem_map_of_mem _ ht
      rw [updateLoop_ids] at hmem
      obtain ⟨t0, ht0, hid⟩ := List.mem_map.mp hmem
      rw [← hid]
      exact hpos t0 ht0
  · intro id
    refine ⟨by rw [deleteTodoTask_file, hl], ?_⟩
    rw [deleteLoop_eq]
    constructor
    · exact List.Nodup.sublist ((List.filter_sublist todos).map _) hnd
    · intro t ht
      exact hpos t (List.mem_of_mem_filter ht)

set_option maxRecDepth 100000 in
/-- C2, amended, applied to the store with the ids 1, 2, 3. -/
theorem invariant_preserved_witness :
    UniquePositive [⟨1, utf8 "Buy milk", false⟩, ⟨2, utf8 "Walk dog", true⟩,
      ⟨3, utf8 "Read book", false⟩]
    ∧ UniquePositive (addTodo (utf8 "x") [⟨1, utf8 "Buy milk", false⟩, ⟨2, utf8 "Walk dog", true⟩,
      ⟨3, utf8 "Read book", false⟩])
    ∧ UniquePositive (deleteLoop 2 [⟨1, utf8 "Buy milk", false⟩, ⟨2, utf8 "Walk dog", true⟩,
      ⟨3, utf8 "Read book", false⟩]).1 :=
  have hu : UniquePositive [⟨1, utf8 "Buy milk", false⟩, ⟨2, utf8 "Walk dog", true⟩,
      ⟨3, utf8 "Read book", false⟩] := by unfold UniquePositive; decide
  have hall := invariant_preserved worldThree
      [⟨1, utf8 "Buy milk", false⟩, ⟨2, utf8 "Walk dog", true⟩, ⟨3, utf8 "Read book", false⟩]
      (by decide) hu
  ⟨hu, (hall.2.1 (utf8 "x") (by decide)).2, (hall.2.2.2 2).2⟩

/-! ## C3: `delete` of an existing id -/

/-- C3: for every stored collection with unique ids that has a task with id
`i`, `delete i` writes back exactly the tasks whose id is not `i`, in their
original order: one task fewer, none with id `i`, every other task still
there. -/
theorem delete_existing (w : World) (todos : List Todo) (i : Int)
    (hl : (loadTodos w).1 = todos)
    (hu : (todos.map (fun t => t.ID)).Nodup) (hi : ∃ t ∈ todos, t.ID = i) :
    (deleteTodoTask i w).file
        = some (jsonMarshalIndent (todos.filter (fun t => decide (t.ID ≠ i))))
    ∧ (todos.filter (fun t => decide (t.ID ≠ i))).Sublist todos
    ∧ (todos.filter (fun t => decide (t.ID ≠ i))).length + 1 = todos.length
    ∧ (∀ t ∈ todos.filter (fun t => decide (t.ID ≠ i)), t.ID ≠ i)
    ∧ (∀ t ∈ todos, t.ID ≠ i → t ∈ todos.filter (fun t => decide (t.ID ≠ i))) := by
  refine ⟨?_, List.filter_sublist todos, filter_length_of_nodup i todos hu hi, ?_, ?_⟩
  · rw [deleteTodoTask_file, hl, deleteLoop_eq]
    obtain ⟨t, ht, hid⟩ := hi
    have hany : todos.any (fun t => decide (t.ID = i)) = true :=
      List.any_eq_true.mpr ⟨t, ht, by simpa using hid⟩
    simp [hany]
  · intro t ht
    simpa using (List.mem_filter.mp ht).2
  · intro t ht hne
    exact List.mem_filter.mpr ⟨ht, by simpa using hne⟩

set_option maxRecDepth 100000 in
/-- C3 applied to `delete 2` on the store with the ids 1, 2, 3. -/
theorem delete_existing_witness :
    (deleteTodoTask 2 worldThree).file
      = some (jsonMarshalIndent [⟨1, utf8 "Buy milk", false⟩, ⟨3, utf8 "Read book", false⟩]) :=
  (delete_existing worldThree
    [⟨1, utf8 "Buy milk", false⟩, ⟨2, utf8 "Walk dog", true⟩, ⟨3, utf8 "Read book", false⟩] 2
    (by decide) (by decide) ⟨⟨2, utf8 "Walk dog", true⟩, by decide, rfl⟩).1

/-! ## C4: an id that no task carries -/

theorem updateTodoTask_missing (w : World) (id : Int) (task : GoString)
    (h : ∀ t ∈ (loadTodos w).1, t.ID ≠ id) :
    updateTodoTask id task w = println (notFoundLine id) (loadTodos w).2 := by
  have hup : (updateLoop id task (loadTodos w).1).2 = false := by
    rw [updateLoop_missing id task _ h]
  unfold updateTodoTask
  simp [hup]

theorem deleteTodoTask_missing (w : World) (id : Int)
    (h : ∀ t ∈ (loadTodos w).1, t.ID ≠ id) :
    deleteTodoTask id w = println (notFoundLine id) (loadTodos w).2 := by
  have hdel : (deleteLoop id (loadTodos w).1).2 = false := by
    rw [deleteLoop_eq]
    simp only [List.any_eq_false, decide_eq_true_eq]
    exact h
  unfold deleteTodoTask
  simp [hdel]

/-- C4: for every stored collection and every id that none of its tasks
carries, `update` and `delete` do not call `saveTodos`; they only print the
not-found line, and the file is what it was. -/
theorem missing_id_no_write (w : World) (todos : List Todo) (id : Int) (task : GoString)
    (hl : (loadTodos w).1 = todos) (h : ∀ t ∈ todos, t.ID ≠ id) :
    updateTodoTask id task w = println (notFoundLine id) (loadTodos w).2
    ∧ deleteTodoTask id w = println (notFoundLine id) (loadTodos w).2
    ∧ (updateTodoTask id task w).file = w.file
    ∧ (deleteTodoTask id w).file = w.file := by
  subst hl
  have hup := updateTodoTask_missing w id task h
  have hdel := deleteTodoTask_missing w id h
  refine ⟨hup, hdel, ?_, ?_⟩
  · rw [hup, println_file, loadTodos_file]
  · rw [hdel, println_file, loadTodos_file]

set_option maxRecDepth 100000 in
/-- C4 applied to the id 7 on the store with the ids 1, 2, 3. -/
theorem missing_id_no_write_witness :
    (updateTodoTask 7 (utf8 "x") worldThree).file = worldThree.file
    ∧ (deleteTodoTask 7 worldThree).file = worldThree.file :=
  (missing_id_no_write worldThree
    [⟨1, utf8 "Buy milk", false⟩, ⟨2, utf8 "Walk dog", true⟩, ⟨3, utf8 "Read book", false⟩] 7
    (utf8 "x") (by decide) (by decide)).2.2

/-! ## C5: `update` of an existing id -/

/-- C5: for every stored collection that has a task with id `i` and every
description `d`, `update i d` writes back the collection with the first task
of id `i` (at position `k`) replaced by the same task with description `d`:
same length and order, same id and flag at `k`, every other position
unchanged; with unique ids position `k` is the only task with id `i`. -/
theorem update_existing (w : World) (todos : List Todo) (i : Int) (d : GoString)
    (hl : (loadTodos w).1 = todos) (hi : ∃ t ∈ todos, t.ID = i) :
    ∃ (k : Nat) (old : Todo),
      todos[k]? = some old ∧ old.ID = i
      ∧ (∀ j t, j < k → todos[j]? = some t → t.ID ≠ i)
      ∧ (updateTodoTask i d w).file
          = some (jsonMarshalIndent (todos.set k { old with Task := d }))
      ∧ (todos.set k { old with Task := d }).length = todos.length
      ∧ (todos.set k { old with Task := d })[k]?
          = some { ID := old.ID, Task := d, Completed := old.Completed }
      ∧ (∀ j, j ≠ k → (todos.set k { old with Task := d })[j]? = todos[j]?)
      ∧ ((todos.map (fun t => t.ID)).Nodup →
          ∀ j t, todos[j]? = some t → t.ID = i → j = k) := by
  obtain ⟨k, old, hk, hold, hbefore, hupd⟩ := updateLoop_found i d todos hi
  have hklt : k < todos.length := by
    by_contra hge
    rw [List.getElem?_eq_none (not_lt.mp hge)] at hk
    cases hk
  refine ⟨k, old, hk, hold, hbefore, ?_, by simp, ?_, ?_, ?_⟩
  · rw [updateTodoTask_file, hl, hupd]
    simp
  · rw [List.getElem?_set_self hklt]
  · intro j hj
    rw [List.getElem?_set_ne (Ne.symm hj)]
  · intro hnd j t hj hid
    have hjlt : j < todos.length := by
      by_contra hge
      rw [List.getElem?_eq_none (not_lt.mp hge)] at hj
      cases hj
    have h1 : (todos.map (fun t => t.ID))[j]? = some i := by
      rw [List.getElem?_map, hj]; simp [hid]
    have h2 : (todos.map (fun t => t.ID))[k]? = some i := by
      rw [List.getElem?_map, hk]; simp [hold]
    have hjl : j < (todos.map (fun t => t.ID)).length := by simpa using hjlt
    have hkl : k < (todos.map (fun t => t.ID)).length := by simpa using hklt
    rw [List.getElem?_eq_getElem hjl] at h1
    rw [List.getElem?_eq_getElem hkl] at h2
    have heq : (todos.map (fun t => t.ID))[j] = (todos.map (fun t => t.ID))[k] := by
      rw [Option.some.inj h1, Option.some.inj h2]
    exact (List.Nodup.getElem_inj_iff hnd).mp heq

set_option maxRecDepth 100000 in
/-- C5 applied to `update 2 "Walk the dog twice"` on the store with the ids
1, 2, 3. -/
theorem update_existing_witness :
    ∃ (k : Nat) (old : Todo),
      [(⟨1, utf8 "Buy milk", false⟩ : Todo), ⟨2, utf8 "Walk dog", true⟩,
        ⟨3, utf8 "Read book", false⟩][k]? = some old ∧ old.ID = 2
      ∧ (updateTodoTask 2 (utf8 "Walk the dog twice") worldThree).file
          = some (jsonMarshalIndent
              ([(⟨1, utf8 "Buy milk", false⟩ : Todo), ⟨2, utf8 "Walk dog", true⟩,
                ⟨3, utf8 "Read book", false⟩].set k { old with Task := utf8 "Walk the dog twice" })) :=
  have h := update_existing worldThree
    [⟨1, utf8 "Buy milk", false⟩, ⟨2, utf8 "Walk dog", true⟩, ⟨3, utf8 "Read book", false⟩] 2
    (utf8 "Walk the dog twice") (by decide) ⟨⟨2, utf8 "Walk dog", true⟩, by decide, rfl⟩
  h.elim fun k hk => hk.elim fun old ho => ⟨k, old, ho.1, ho.2.1, ho.2.2.2.1⟩

/-! ## C6: saving and loading

The lemmas follow the text `json.MarshalIndent` writes from the inside out:
runes, strings, numbers, the members of an object, the elements of the
array. -/

theorem first_some (b sz lo hi : Nat) (h : first b = some (sz, lo, hi)) :
    (sz = 2 ∧ lo = 0x80 ∧ hi = 0xBF ∧ 0xC2 ≤ b ∧ b ≤ 0xDF)
    ∨ (sz = 3 ∧ lo = 0xA0 ∧ hi = 0xBF ∧ b = 0xE0)
    ∨ (sz = 3 ∧ lo = 0x80 ∧ hi = 0xBF ∧ 0xE1 ≤ b ∧ b ≤ 0xEF ∧ b ≠ 0xED)
    ∨ (sz = 3 ∧ lo = 0x80 ∧ hi = 0x9F ∧ b = 0xED)
    ∨ (sz = 4 ∧ lo = 0x90 ∧ hi = 0xBF ∧ b = 0xF0)
    ∨ (sz = 4 ∧ lo = 0x80 ∧ hi = 0xBF ∧ 0xF1 ≤ b ∧ b ≤ 0xF3)
    ∨ (sz = 4 ∧ lo = 0x80 ∧ hi = 0x8F ∧ b = 0xF4) := by
  unfold first at h
  split_ifs at h <;> simp only [Option.some.injEq, Prod.mk.injEq, reduceCtorEq] at h <;>
    obtain ⟨rfl, rfl, rfl⟩ := h <;> omega

theorem encodeRune_two (b s1 : Nat) (hb : 0xC2 ≤ b ∧ b ≤ 0xDF) (h1 : 0x80 ≤ s1 ∧ s1 ≤ 0xBF) :
    encodeRune (b % 32 * 64 + s1 % 64) = [b, s1] := by
  unfold encodeRune
  rw [if_neg (by omega), if_pos (by omega)]
  congr 1
  · omega
  · congr 1
    omega

theorem encodeRune_three (b s1 s2 : Nat) (hb : 0xE0 ≤ b ∧ b ≤ 0xEF)
    (h1 : 0x80 ≤ s1 ∧ s1 ≤ 0xBF) (hlo : b = 0xE0 → 0xA0 ≤ s1) (hhi : b = 0xED → s1 ≤ 0x9F)
    (h2 : 0x80 ≤ s2 ∧ s2 ≤ 0xBF) :
    encodeRune (b % 16 * 4096 + s1 % 64 * 64 + s2 % 64) = [b, s1, s2] := by
  unfold encodeRune
  rw [if_neg (by omega), if_neg (by omega), if_neg (by omega), if_pos (by omega)]
  congr 1
  · omega
  · congr 1
    · omega
    · congr 1
      omega

theorem encodeRune_four (b s1 s2 s3 : Nat) (hb : 0xF0 ≤ b ∧ b ≤ 0xF4)
    (h1 : 0x80 ≤ s1 ∧ s1 ≤ 0xBF) (hlo : b = 0xF0 → 0x90 ≤ s1) (hhi : b = 0xF4 → s1 ≤ 0x8F)
    (h2 : 0x80 ≤ s2 ∧ s2 ≤ 0xBF) (h3 : 0x80 ≤ s3 ∧ s3 ≤ 0xBF) :
    encodeRune (b % 8 * 262144 + s1 % 64 * 4096 + s2 % 64 * 64 + s3 % 64) = [b, s1, s2, s3] := by
  unfold encodeRune
  rw [if_neg (by omega), if_neg (by omega), if_neg (by omega), if_neg (by omega)]
  congr 1
  · omega
  · congr 1
    · omega
    · congr 1
      · omega
      · congr 1
        omega

/-- A multi-byte rune that `decodeRune` accepts: the bytes it is made of, what
they encode and what is left. -/
theorem decodeRune_multibyte (b : Nat) (rest : GoString) (hb : 0x80 ≤ b)
    (hv : ¬ ((decodeRune (b :: rest)).1 = RuneError ∧ (decodeRune (b :: rest)).2 = 1)) :
    ∃ bs tail, b :: rest = bs ++ tail
      ∧ (∀ tail', decodeRune (bs ++ tail') = decodeRune (b :: rest))
      ∧ (decodeRune (b :: rest)).2 = bs.length
      ∧ encodeRune (decodeRune (b :: rest)).1 = bs
      ∧ (∀ x ∈ bs, 0x80 ≤ x)
      ∧ 0x80 ≤ (decodeRune (b :: rest)).1
      ∧ 1 ≤ bs.length := by
  have hnb : ¬ b < 0x80 := by omega
  cases hf : first b with
  | none =>
    exfalso; apply hv
    simp [decodeRune, hnb, hf]
  | some p =>
    obtain ⟨sz, lo, hi⟩ := p
    have hfs := first_some b sz lo hi hf
    cases rest with
    | nil =>
      exfalso; apply hv
      simp [decodeRune, hnb, hf]
    | cons s1 t1 =>
      by_cases h1 : s1 < lo ∨ hi < s1
      · exfalso; apply hv
        simp [decodeRune, hnb, hf, h1]
      · by_cases hsz2 : sz ≤ 2
        · have hd : ∀ t, decodeRune (b :: s1 :: t) = (b % 32 * 64 + s1 % 64, 2) := by
            intro t
            simp [decodeRune, hnb, hf, h1, hsz2]
          refine ⟨[b, s1], t1, rfl, ?_, ?_, ?_, ?_, ?_, ?_⟩
          · intro t; simp only [List.cons_append, List.nil_append, hd]
          · rw [hd]; rfl
          · rw [hd]; exact encodeRune_two b s1 (by omega) (by omega)
          · intro x hx
            simp only [List.mem_cons, List.mem_singleton, List.not_mem_nil, or_false] at hx
            omega
          · rw [hd]; show 0x80 ≤ b % 32 * 64 + s1 % 64; omega
          · simp
        · cases t1 with
          | nil =>
            exfalso; apply hv
            simp [decodeRune, hnb, hf, h1, hsz2]
          | cons s2 t2 =>
            by_cases h2 : s2 < 0x80 ∨ 0xBF < s2
            · exfalso; apply hv
              simp [decodeRune, hnb, hf, h1, hsz2, h2]
            · by_cases hsz3 : sz ≤ 3
              · have hd : ∀ t, decodeRune (b :: s1 :: s2 :: t)
                    = (b % 16 * 4096 + s1 % 64 * 64 + s2 % 64, 3) := by
                  intro t
                  simp [decodeRune, hnb, hf, h1, hsz2, h2, hsz3]
                refine ⟨[b, s1, s2], t2, rfl, ?_, ?_, ?_, ?_, ?_, ?_⟩
                · intro t; simp only [List.cons_append, List.nil_append, hd]
                · rw [hd]; rfl
                · rw [hd]
                  exact encodeRune_three b s1 s2 (by omega) (by omega) (by omega) (by omega)
                    (by omega)
                · intro x hx
                  simp only [List.mem_cons, List.mem_singleton, List.not_mem_nil, or_false] at hx
                  omega
                · rw [hd]; show 0x80 ≤ b % 16 * 4096 + s1 % 64 * 64 + s2 % 64; omega
                · simp
              · cases t2 with
                | nil =>
                  exfalso; apply hv
                  simp [decodeRune, hnb, hf, h1, hsz2, h2, hsz3]
                | cons s3 t3 =>
                  by_cases h3 : s3 < 0x80 ∨ 0xBF < s3
                  · exfalso; apply hv
                    simp [decodeRune, hnb, hf, h1, hsz2, h2, hsz3, h3]
                  · have hd : ∀ t, decodeRune (b :: s1 :: s2 :: s3 :: t)
                        = (b % 8 * 262144 + s1 % 64 * 4096 + s2 % 64 * 64 + s3 % 64, 4) := by
                      intro t
                      simp [decodeRune, hnb, hf, h1, hsz2, h2, hsz3, h3]
                    refine ⟨[b, s1, s2, s3], t3, rfl, ?_, ?_, ?_, ?_, ?_, ?_⟩
                    · intro t; simp only [List.cons_append, List.nil_append, hd]
                    · rw [hd]; rfl
                    · rw [hd]
                      exact encodeRune_four b s1 s2 s3 (by omega) (by omega) (by omega)
                        (by omega) (by omega) (by omega)
                    · intro x hx
                      simp only [List.mem_cons, List.mem_singleton, List.not_mem_nil,
                        or_false] at hx
                      omega
                    · rw [hd]
                      show 0x80 ≤ b % 8 * 262144 + s1 % 64 * 4096 + s2 % 64 * 64 + s3 % 64
                      omega
                    · simp

theorem scanString_escapeByte (b : Nat) (hb : b < 0x80) (hs : htmlSafe b = false)
    (fuel : Nat) (rest : GoString) :
    scanString (fuel + 1) (escapeByte b ++ rest) = consResult [b] (scanString fuel rest) := by
  interval_cases b <;> first | (exact absurd hs (by decide)) | rfl

theorem scanString_safe (b : Nat) (hb : b < 0x80) (hs : htmlSafe b = true)
    (fuel : Nat) (rest : GoString) :
    scanString (fuel + 1) (b :: rest) = consResult [b] (scanString fuel rest) := by
  interval_cases b <;> first | (exact absurd hs (by decide)) | rfl

theorem escapeByte_length (b : Nat) : 2 ≤ (escapeByte b).length := by
  unfold escapeByte
  split_ifs <;> simp

theorem scanString_quote (fuel : Nat) (rest : GoString) :
    scanString (fuel + 1) (0x22 :: rest) = some ([], rest) := rfl

theorem scanString_multibyte (bs : GoString) (r : Nat) (fuel : Nat) (rest : GoString)
    (hne : 1 ≤ bs.length) (hhi : ∀ x ∈ bs, 0x80 ≤ x)
    (hd : decodeRune (bs ++ rest) = (r, bs.length)) (he : encodeRune r = bs) :
    scanString (fuel + 1) (bs ++ rest) = consResult bs (scanString fuel rest) := by
  cases bs with
  | nil => simp at hne
  | cons b bs' =>
    have hb : 0x80 ≤ b := hhi b (List.mem_cons_self _ _)
    have h1 : ¬ b = 0x22 := by omega
    have h2 : ¬ b = 0x5C := by omega
    have h3 : ¬ b < 0x20 := by omega
    have h4 : ¬ b < 0x80 := by omega
    rw [List.cons_append] at hd ⊢
    simp only [scanString, h1, h2, h3, h4, if_false, hd, he]
    rw [← List.cons_append, List.drop_left]

theorem scanString_lineSep (r : Nat) (hr : r = 0x2028 ∨ r = 0x2029) (fuel : Nat)
    (rest : GoString) :
    scanString (fuel + 1) ([0x5C, 0x75, 0x32, 0x30, 0x32, hexDigit (r % 16)] ++ rest)
      = consResult (encodeRune r) (scanString fuel rest) := by
  rcases hr with rfl | rfl <;> rfl

theorem scanString_replacement (fuel : Nat) (rest : GoString) :
    scanString (fuel + 1) ([0x5C, 0x75, 0x66, 0x66, 0x66, 0x64] ++ rest)
      = consResult [0xEF, 0xBF, 0xBD] (scanString fuel rest) := rfl

theorem scanString_appendStringLoop (fuel : Nat) :
    ∀ s : GoString, s.length ≤ fuel →
      ∀ (rest : GoString) (fuel2 : Nat), (appendStringLoop fuel s).length < fuel2 →
        scanString fuel2 (appendStringLoop fuel s ++ 0x22 :: rest)
          = some (coerceLoop fuel s, rest) := by
  induction fuel with
  | zero =>
    intro s hlen rest fuel2 hf
    have hs : s = [] := List.length_eq_zero.mp (Nat.le_zero.mp hlen)
    subst hs
    obtain ⟨f, rfl⟩ : ∃ f, fuel2 = f + 1 := ⟨fuel2 - 1, by omega⟩
    rfl
  | succ n ih =>
    intro s hlen rest fuel2 hf
    cases s with
    | nil =>
      obtain ⟨f, rfl⟩ : ∃ f, fuel2 = f + 1 := ⟨fuel2 - 1, by omega⟩
      rfl
    | cons b t =>
      obtain ⟨f, rfl⟩ : ∃ f, fuel2 = f + 1 := ⟨fuel2 - 1, by omega⟩
      have hlt : t.length ≤ n := by simpa using hlen
      by_cases hb : b < 0x80
      · have hdec : decodeRune (b :: t) = (b, 1) := by simp [decodeRune, hb]
        have hne : ¬ ((decodeRune (b :: t)).1 = RuneError ∧ (decodeRune (b :: t)).2 = 1) := by
          rw [hdec]; unfold RuneError; simp only; omega
        have hco : coerceLoop (n + 1) (b :: t) = b :: coerceLoop n t := by
          simp only [coerceLoop]
          rw [if_neg hne, hdec]
          rfl
        rw [hco]
        by_cases hsafe : htmlSafe b = true
        · have hout : appendStringLoop (n + 1) (b :: t) = b :: appendStringLoop n t := by
            simp [appendStringLoop, hb, hsafe]
          rw [hout] at hf ⊢
          rw [List.cons_append, scanString_safe b hb hsafe,
            ih t hlt rest f (by simp at hf; omega)]
          rfl
        · have hsafe' : htmlSafe b = false := by simpa using hsafe
          have hout : appendStringLoop (n + 1) (b :: t)
              = escapeByte b ++ appendStringLoop n t := by
            simp [appendStringLoop, hb, hsafe']
          have hel := escapeByte_length b
          rw [hout] at hf ⊢
          rw [List.append_assoc, scanString_escapeByte b hb hsafe',
            ih t hlt rest f (by simp at hf; omega)]
          rfl
      · have hb' : 0x80 ≤ b := by omega
        by_cases hv : (decodeRune (b :: t)).1 = RuneError ∧ (decodeRune (b :: t)).2 = 1
        · have hout : appendStringLoop (n + 1) (b :: t)
              = [0x5C, 0x75, 0x66, 0x66, 0x66, 0x64] ++ appendStringLoop n t := by
            simp only [appendStringLoop, if_neg hb, if_pos hv]
          have hco : coerceLoop (n + 1) (b :: t) = [0xEF, 0xBF, 0xBD] ++ coerceLoop n t := by
            simp only [coerceLoop, if_pos hv]
          rw [hout] at hf ⊢
          rw [hco, List.append_assoc, scanString_replacement,
            ih t hlt rest f (by simp at hf; omega)]
          rfl
        · obtain ⟨bs, tail, hsplit, hany, hsize, henc, hhi, hrune, hne⟩ :=
            decodeRune_multibyte b t hb' hv
          have hdrop : (b :: t).drop (decodeRune (b :: t)).2 = tail := by
            rw [hsize, hsplit, List.drop_left]
          have htake : (b :: t).take (decodeRune (b :: t)).2 = bs := by
            rw [hsize, hsplit, List.take_left]
          have hlt2 : tail.length ≤ n := by
            have := congrArg List.length hsplit
            simp only [List.length_cons, List.length_append] at this
            simp only [List.length_cons] at hlen
            omega
          have hco : coerceLoop (n + 1) (b :: t) = bs ++ coerceLoop n tail := by
            simp only [coerceLoop, if_neg hv, hdrop, htake]
          rw [hco]
          by_cases hsep : (decodeRune (b :: t)).1 = 0x2028 ∨ (decodeRune (b :: t)).1 = 0x2029
          · have hout : appendStringLoop (n + 1) (b :: t)
                = [0x5C, 0x75, 0x32, 0x30, 0x32, hexDigit ((decodeRune (b :: t)).1 % 16)]
                    ++ appendStringLoop n tail := by
              simp only [appendStringLoop, if_neg hb, if_neg hv, if_pos hsep, hdrop]
            rw [hout] at hf ⊢
            rw [List.append_assoc, scanString_lineSep _ hsep,
              ih tail hlt2 rest f (by simp at hf; omega), henc]
            rfl
          · have hout : appendStringLoop (n + 1) (b :: t) = bs ++ appendStringLoop n tail := by
              simp only [appendStringLoop, if_neg hb, if_neg hv, if_neg hsep, hdrop, htake]
            rw [hout] at hf ⊢
            rw [List.append_assoc,
              scanString_multibyte bs (decodeRune (b :: t)).1 f _ hne hhi
                (by rw [hany, ← hsize]) henc,
              ih tail hlt2 rest f (by simp at hf; omega)]
            rfl

theorem decodeRune_size_pos (b : Nat) (t : GoString) : 1 ≤ (decodeRune (b :: t)).2 := by
  by_cases hb : b < 0x80
  · simp [decodeRune, hb]
  · by_cases hv : (decodeRune (b :: t)).1 = RuneError ∧ (decodeRune (b :: t)).2 = 1
    · omega
    · obtain ⟨bs, tail, _, _, hsize, _, _, _, hne⟩ :=
        decodeRune_multibyte b t (by omega) hv
      omega

theorem coerceLoop_of_valid (fuel : Nat) : ∀ s : GoString, s.length ≤ fuel →
    validLoop fuel s = true → coerceLoop fuel s = s := by
  induction fuel with
  | zero =>
    intro s hlen _
    have hs : s = [] := List.length_eq_zero.mp (Nat.le_zero.mp hlen)
    subst hs
    rfl
  | succ n ih =>
    intro s hlen hvalid
    cases s with
    | nil => rfl
    | cons b t =>
      have hv : ¬ ((decodeRune (b :: t)).1 = RuneError ∧ (decodeRune (b :: t)).2 = 1) := by
        intro hbad
        simp only [validLoop] at hvalid
        rw [if_pos hbad] at hvalid
        cases hvalid
      have hpos := decodeRune_size_pos b t
      have hvt : validLoop n ((b :: t).drop (decodeRune (b :: t)).2) = true := by
        simp only [validLoop] at hvalid
        rw [if_neg hv] at hvalid
        exact hvalid
      have hlt : ((b :: t).drop (decodeRune (b :: t)).2).length ≤ n := by
        rw [List.length_drop]
        simp only [List.length_cons] at hlen ⊢
        omega
      simp only [coerceLoop, if_neg hv]
      rw [ih _ hlt hvt, List.take_append_drop]

theorem toValidUTF8_of_valid (s : GoString) (h : validString s = true) : toValidUTF8 s = s :=
  coerceLoop_of_valid s.length s (le_refl _) h

theorem validLoop_succ (f : Nat) : ∀ s : GoString, validLoop f s = true →
    validLoop (f + 1) s = true := by
  induction f with
  | zero =>
    intro s h
    have hs : s = [] := by simpa [validLoop] using h
    subst hs
    rfl
  | succ n ih =>
    intro s h
    cases s with
    | nil => rfl
    | cons b t =>
      simp only [validLoop] at h ⊢
      by_cases hbad : (decodeRune (b :: t)).1 = RuneError ∧ (decodeRune (b :: t)).2 = 1
      · rw [if_pos hbad] at h; cases h
      · rw [if_neg hbad] at h ⊢
        exact ih _ h

theorem validLoop_mono (f g : Nat) (hfg : f ≤ g) (s : GoString) (h : validLoop f s = true) :
    validLoop g s = true := by
  induction hfg with
  | refl => exact h
  | step _ ih => exact validLoop_succ _ s ih

/-- A byte sequence that decodes as one rune, whatever follows it. -/
theorem validLoop_rune (bs tail : GoString) (d : Nat × Nat) (f : Nat)
    (hany : ∀ tail', decodeRune (bs ++ tail') = d) (hsize : d.2 = bs.length)
    (hpos : 1 ≤ bs.length) (hgood : ¬ (d.1 = RuneError ∧ d.2 = 1))
    (htail : validLoop f tail = true) : validLoop (f + 1) (bs ++ tail) = true := by
  cases bs with
  | nil => simp at hpos
  | cons c cs =>
    have hd := hany tail
    rw [List.cons_append] at hd ⊢
    simp only [validLoop]
    rw [hd, if_neg hgood, hsize, ← List.cons_append, List.drop_left]
    exact htail

theorem decodeRune_prefix (b : Nat) (t : GoString)
    (hv : ¬ ((decodeRune (b :: t)).1 = RuneError ∧ (decodeRune (b :: t)).2 = 1)) :
    ∃ bs tail, b :: t = bs ++ tail
      ∧ (∀ tail', decodeRune (bs ++ tail') = decodeRune (b :: t))
      ∧ (decodeRune (b :: t)).2 = bs.length ∧ 1 ≤ bs.length := by
  by_cases hb : b < 0x80
  · refine ⟨[b], t, rfl, ?_, ?_, by simp⟩
    · intro tail'
      simp [decodeRune, hb]
    · simp [decodeRune, hb]
  · obtain ⟨bs, tail, hsplit, hany, hsize, _, _, _, hne⟩ :=
      decodeRune_multibyte b t (by omega) hv
    exact ⟨bs, tail, hsplit, hany, hsize, hne⟩

theorem validLoop_coerceLoop (fuel : Nat) : ∀ s : GoString, s.length ≤ fuel →
    validLoop (coerceLoop fuel s).length (coerceLoop fuel s) = true := by
  induction fuel with
  | zero =>
    intro s _
    have hnil : coerceLoop 0 s = [] := by cases s <;> rfl
    rw [hnil]
    rfl
  | succ n ih =>
    intro s hlen
    cases s with
    | nil => rfl
    | cons b t =>
      have hlt : t.length ≤ n := by simpa using hlen
      by_cases hv : (decodeRune (b :: t)).1 = RuneError ∧ (decodeRune (b :: t)).2 = 1
      · have hco : coerceLoop (n + 1) (b :: t) = [0xEF, 0xBF, 0xBD] ++ coerceLoop n t := by
          simp only [coerceLoop, if_pos hv]
        rw [hco]
        have hrep : ∀ tail', decodeRune ([0xEF, 0xBF, 0xBD] ++ tail') = (0xFFFD, 3) := by
          intro tail'; rfl
        have hstep := validLoop_rune [0xEF, 0xBF, 0xBD] (coerceLoop n t) (0xFFFD, 3)
          ((coerceLoop n t).length + 2) hrep rfl (by simp) (by simp)
          (validLoop_mono _ _ (by omega) _ (ih t hlt))
        have hlenEq : ([0xEF, 0xBF, 0xBD] ++ coerceLoop n t).length
            = (coerceLoop n t).length + 2 + 1 := by
          simp only [List.length_append, List.length_cons, List.length_nil]
          omega
        rw [hlenEq]
        exact hstep
      · obtain ⟨bs, tail, hsplit, hany, hsize, hpos⟩ := decodeRune_prefix b t hv
        have hdrop : (b :: t).drop (decodeRune (b :: t)).2 = tail := by
          rw [hsize, hsplit, List.drop_left]
        have htake : (b :: t).take (decodeRune (b :: t)).2 = bs := by
          rw [hsize, hsplit, List.take_left]
        have hlt2 : tail.length ≤ n := by
          have := congrArg List.length hsplit
          simp only [List.length_cons, List.length_append] at this
          simp only [List.length_cons] at hlen
          omega
        have hco : coerceLoop (n + 1) (b :: t) = bs ++ coerceLoop n tail := by
          simp only [coerceLoop, if_neg hv, hdrop, htake]
        rw [hco]
        obtain ⟨k, hk⟩ : ∃ k, (bs ++ coerceLoop n tail).length = k + 1 :=
          ⟨(bs ++ coerceLoop n tail).length - 1, by simp only [List.length_append]; omega⟩
        rw [hk]
        apply validLoop_rune bs (coerceLoop n tail) (decodeRune (b :: t)) k hany hsize hpos hv
        apply validLoop_mono _ _ _ _ (ih tail hlt2)
        simp only [List.length_append] at hk
        omega

theorem validString_toValidUTF8 (s : GoString) : validString (toValidUTF8 s) = true :=
  validLoop_coerceLoop s.length s (le_refl _)

theorem toValidUTF8_idem (s : GoString) : toValidUTF8 (toValidUTF8 s) = toValidUTF8 s :=
  toValidUTF8_of_valid _ (validString_toValidUTF8 s)

theorem digitsAux_append (fuel : Nat) : ∀ (n : Nat) (acc : GoString),
    digitsAux fuel n acc = digitsAux fuel n [] ++ acc := by
  induction fuel with
  | zero => intro n acc; rfl
  | succ f ih =>
    intro n acc
    unfold digitsAux
    by_cases h : n < 10
    · simp [h]
    · simp only [h, if_false]
      rw [ih (n / 10) ((48 + n % 10) :: acc), ih (n / 10) [48 + n % 10]]
      simp

theorem digitsAux_step (f n : Nat) (h : ¬ n < 10) :
    digitsAux (f + 1) n [] = digitsAux f (n / 10) [] ++ [48 + n % 10] := by
  conv_lhs => unfold digitsAux
  rw [if_neg h, digitsAux_append]

theorem digitsAux_small (f n : Nat) (h : n < 10) : digitsAux (f + 1) n [] = [48 + n] := by
  unfold digitsAux
  rw [if_pos h]

theorem digitsAux_allDigits (fuel : Nat) : ∀ n, AllDigits (digitsAux fuel n []) := by
  induction fuel with
  | zero => intro n c hc; cases hc
  | succ f ih =>
    intro n
    by_cases h : n < 10
    · rw [digitsAux_small f n h]
      intro c hc
      simp only [List.mem_singleton] at hc
      omega
    · rw [digitsAux_step f n h]
      intro c hc
      rcases List.mem_append.mp hc with h1 | h1
      · exact ih (n / 10) c h1
      · simp only [List.mem_singleton] at h1
        omega

theorem decValue_append (ds es : GoString) (a : Nat) :
    decValue (ds ++ es) a = decValue es (decValue ds a) := by
  unfold decValue
  rw [List.foldl_append]

theorem decValue_digitsAux (fuel : Nat) : ∀ n, n < fuel → decValue (digitsAux fuel n []) 0 = n := by
  induction fuel with
  | zero => intro n h; omega
  | succ f ih =>
    intro n hn
    by_cases h : n < 10
    · rw [digitsAux_small f n h]
      simp [decValue]
    · rw [digitsAux_step f n h, decValue_append, ih (n / 10) (by omega)]
      simp only [decValue, List.foldl_cons, List.foldl_nil]
      omega

/-- The shape of the decimal text: a single `0` for zero, else a first digit
that is not `0`. -/
theorem digitsAux_head (fuel : Nat) : ∀ n, n < fuel →
    ∃ d ds, digitsAux fuel n [] = d :: ds ∧ 48 ≤ d ∧ d ≤ 57
      ∧ (n = 0 → d = 48 ∧ ds = []) ∧ (0 < n → 49 ≤ d) := by
  induction fuel with
  | zero => intro n h; omega
  | succ f ih =>
    intro n hn
    by_cases h : n < 10
    · rw [digitsAux_small f n h]
      exact ⟨48 + n, [], rfl, by omega, by omega, fun h0 => ⟨by omega, rfl⟩, fun hp => by omega⟩
    · rw [digitsAux_step f n h]
      obtain ⟨d, ds, heq, h1, h2, _, h4⟩ := ih (n / 10) (by omega)
      rw [heq]
      exact ⟨d, ds ++ [48 + n % 10], rfl, h1, h2, fun h0 => by omega,
        fun _ => h4 (by omega)⟩

theorem decValue_ge (ds : GoString) : ∀ a, a ≤ decValue ds a := by
  induction ds with
  | nil => intro a; exact le_refl _
  | cons c cs ih =>
    intro a
    have := ih (a * 10 + (c - 48))
    simp only [decValue, List.foldl_cons] at this ⊢
    omega

theorem parseUintLoop_digits (ds : GoString) : ∀ a, AllDigits ds →
    decValue ds a ≤ 18446744073709551615 → parseUintLoop ds a = (decValue ds a, none) := by
  induction ds with
  | nil => intro a _ _; rfl
  | cons c cs ih =>
    intro a hall hle
    have hc := hall c (List.mem_cons_self _ _)
    have hcs : AllDigits cs := fun x hx => hall x (List.mem_cons_of_mem _ hx)
    have hstep : decValue (c :: cs) a = decValue cs (a * 10 + (c - 48)) := rfl
    have hge := decValue_ge cs (a * 10 + (c - 48))
    rw [hstep] at hle ⊢
    unfold parseUintLoop
    rw [if_pos hc, if_neg (by omega)]
    simp only
    rw [if_neg (by omega)]
    exact ih _ hcs hle

theorem parseUint_formatUint (n : Nat) (hn : n ≤ 18446744073709551615) :
    parseUint (formatUint n) = (n, none) := by
  unfold formatUint
  obtain ⟨d, ds, heq, _, _, _, _⟩ := digitsAux_head (n + 1) n (by omega)
  have hval := decValue_digitsAux (n + 1) n (by omega)
  have hall := digitsAux_allDigits (n + 1) n
  unfold parseUint
  rw [heq] at hval hall ⊢
  simp only
  rw [parseUintLoop_digits (d :: ds) 0 hall (by omega), hval]

theorem parseInt_formatInt (i : Int) (h1 : minInt ≤ i) (h2 : i ≤ maxInt) :
    parseInt (formatInt i) = (i, none) := by
  unfold minInt at h1
  unfold maxInt at h2
  obtain ⟨d, ds, heq, hd1, hd2, _, _⟩ := digitsAux_head (i.natAbs + 1) i.natAbs (by omega)
  have hpu := parseUint_formatUint i.natAbs (by omega)
  unfold formatInt
  by_cases hneg : i < 0
  · rw [if_pos hneg]
    unfold parseInt
    simp only [decide_True, true_or, or_true, if_true, hpu]
    have hle : ¬ (9223372036854775808 < i.natAbs) := by omega
    simp only [gt_iff_lt, Nat.reducePow, hle, and_false, if_false, false_and, not_true_eq_false,
      and_true]
    rw [Int.ofNat_natAbs_of_nonpos (le_of_lt hneg), neg_neg]
  · rw [if_neg hneg]
    unfold formatUint at hpu ⊢
    rw [heq] at hpu ⊢
    unfold parseInt
    have hd43 : ¬ d = 43 := by omega
    have hd45 : ¬ d = 45 := by omega
    have hle : ¬ (9223372036854775808 ≤ i.natAbs) := by omega
    simp only [hd43, hd45, or_self, if_false, hpu, decide_False, ge_iff_le, Nat.reducePow, hle,
      and_false, Bool.false_eq_true, not_false_eq_true, false_and, gt_iff_lt]
    rw [Int.natAbs_of_nonneg (not_lt.mp hneg)]

theorem spanDigits_digits (ds : GoString) (c : Nat) (rest : GoString) (hall : AllDigits ds)
    (hc : ¬ (48 ≤ c ∧ c ≤ 57)) : spanDigits (ds ++ c :: rest) = (ds, c :: rest) := by
  induction ds with
  | nil => simp [spanDigits, hc]
  | cons d ds ih =>
    have hd := hall d (List.mem_cons_self _ _)
    have hds : AllDigits ds := fun x hx => hall x (List.mem_cons_of_mem _ hx)
    rw [List.cons_append]
    unfold spanDigits
    rw [if_pos hd, ih hds]

theorem scanUnsigned_digits (d : Nat) (ds rest : GoString) (h1 : 48 ≤ d) (h2 : d ≤ 57)
    (hall : AllDigits ds) (hz : d = 48 → ds = []) :
    scanUnsigned (d :: ds ++ 0x2C :: rest) = some (d :: ds, 0x2C :: rest) := by
  unfold scanUnsigned
  by_cases hd : d = 48
  · have hds := hz hd
    subst hd hds
    rfl
  · have hip : scanIntPart (d :: ds ++ 0x2C :: rest) = some (d :: ds, 0x2C :: rest) := by
      rw [List.cons_append]
      simp only [scanIntPart]
      rw [if_neg hd, if_pos (by omega), spanDigits_digits ds _ rest hall (by omega)]
    rw [hip]
    simp [scanFrac, scanExp]

theorem scanNumber_formatInt (i : Int) (rest : GoString) :
    scanNumber (formatInt i ++ 0x2C :: rest) = some (formatInt i, 0x2C :: rest) := by
  obtain ⟨d, ds, heq, hd1, hd2, hz, hp⟩ := digitsAux_head (i.natAbs + 1) i.natAbs (by omega)
  have hall := digitsAux_allDigits (i.natAbs + 1) i.natAbs
  rw [heq] at hall
  have hds : AllDigits ds := fun x hx => hall x (List.mem_cons_of_mem _ hx)
  have hzero : d = 48 → ds = [] := by
    intro h48
    by_cases h0 : i.natAbs = 0
    · exact (hz h0).2
    · have := hp (by omega)
      omega
  have hu := scanUnsigned_digits d ds rest hd1 hd2 hds hzero
  unfold formatInt formatUint
  rw [heq]
  by_cases hneg : i < 0
  · rw [if_pos hneg, List.cons_append]
    simp only [scanNumber]
    rw [if_pos trivial, hu]
  · rw [if_neg hneg, List.cons_append]
    simp only [scanNumber]
    rw [if_neg (by omega), ← List.cons_append, hu]

theorem formatInt_head (i : Int) :
    ∃ c cs, formatInt i = c :: cs ∧ (c = 45 ∨ (48 ≤ c ∧ c ≤ 57)) := by
  obtain ⟨d, ds, heq, hd1, hd2, _, _⟩ := digitsAux_head (i.natAbs + 1) i.natAbs (by omega)
  unfold formatInt formatUint
  rw [heq]
  by_cases hneg : i < 0
  · rw [if_pos hneg]; exact ⟨45, d :: ds, rfl, Or.inl rfl⟩
  · rw [if_neg hneg]; exact ⟨d, ds, rfl, Or.inr ⟨hd1, hd2⟩⟩

theorem parseValue_formatInt (depth : Nat) (i : Int) (rest : GoString) :
    parseValue (depth + 1) (formatInt i ++ 0x2C :: rest)
      = some (.num (formatInt i), 0x2C :: rest) := by
  have hscan := scanNumber_formatInt i rest
  obtain ⟨c, cs, heq, hc⟩ := formatInt_head i
  rw [heq] at hscan ⊢
  rw [List.cons_append] at hscan ⊢
  simp only [parseValue]
  rw [if_neg (by omega), if_neg (by omega), if_neg (by omega), if_neg (by omega),
    if_neg (by omega), if_neg (by omega), hscan]

theorem parseValue_bool (depth : Nat) (b : Bool) (rest : GoString) :
    parseValue (depth + 1) ((if b then utf8 "true" else utf8 "false") ++ rest)
      = some (.bool b, rest) := by
  cases b <;> rfl

theorem parseValue_appendString (depth : Nat) (s : GoString) (rest : GoString) :
    parseValue (depth + 1) (appendString s ++ rest) = some (.str (toValidUTF8 s), rest) := by
  unfold appendString
  rw [List.cons_append, List.append_assoc, List.singleton_append]
  simp only [parseValue]
  rw [scanString_appendStringLoop s.length s (le_refl _) rest _ (by simp)]
  simp [toValidUTF8]

theorem marshalTodo_bytes (t : Todo) (rest : GoString) :
    marshalTodo t ++ rest
      = 0x7B :: 0x0A :: 0x20 :: 0x20 :: 0x20 :: 0x20 :: 0x22 :: 0x69 :: 0x64 :: 0x22 :: 0x3A
        :: 0x20 :: (formatInt t.ID ++ 0x2C :: 0x0A :: 0x20 :: 0x20 :: 0x20 :: 0x20 :: 0x22
        :: 0x74 :: 0x61 :: 0x73 :: 0x6B :: 0x22 :: 0x3A :: 0x20 :: (appendString t.Task
        ++ 0x2C :: 0x0A :: 0x20 :: 0x20 :: 0x20 :: 0x20 :: 0x22 :: 0x63 :: 0x6F :: 0x6D :: 0x70
        :: 0x6C :: 0x65 :: 0x74 :: 0x65 :: 0x64 :: 0x22 :: 0x3A :: 0x20
        :: ((if t.Completed then utf8 "true" else utf8 "false")
        ++ 0x0A :: 0x20 :: 0x20 :: 0x7D :: rest))) := by
  have h1 : utf8 "\x7b\n    \"id\": "
      = [0x7B, 0x0A, 0x20, 0x20, 0x20, 0x20, 0x22, 0x69, 0x64, 0x22, 0x3A, 0x20] := by decide
  have h2 : utf8 ",\n    \"task\": "
      = [0x2C, 0x0A, 0x20, 0x20, 0x20, 0x20, 0x22, 0x74, 0x61, 0x73, 0x6B, 0x22, 0x3A, 0x20] := by
    decide
  have h3 : utf8 ",\n    \"completed\": "
      = [0x2C, 0x0A, 0x20, 0x20, 0x20, 0x20, 0x22, 0x63, 0x6F, 0x6D, 0x70, 0x6C, 0x65, 0x74,
          0x65, 0x64, 0x22, 0x3A, 0x20] := by decide
  have h4 : utf8 "\n  \x7d" = [0x0A, 0x20, 0x20, 0x7D] := by decide
  unfold marshalTodo
  rw [h1, h2, h3, h4]
  simp only [List.append_assoc, List.cons_append, List.nil_append]

theorem parseObjectRest_close (pv : GoString → Option (JVal × GoString)) (f : Nat)
    (rest : GoString) :
    parseObjectRest pv (f + 1) (0x0A :: 0x20 :: 0x20 :: 0x7D :: rest) = some ([], rest) := rfl

theorem parseObjectRest_completed (d f : Nat) (b : Bool) (rest : GoString) :
    parseObjectRest (parseValue (d + 1)) (f + 2)
        (0x2C :: 0x0A :: 0x20 :: 0x20 :: 0x20 :: 0x20 :: 0x22 :: 0x63 :: 0x6F :: 0x6D :: 0x70
          :: 0x6C :: 0x65 :: 0x74 :: 0x65 :: 0x64 :: 0x22 :: 0x3A :: 0x20
          :: ((if b then utf8 "true" else utf8 "false")
          ++ 0x0A :: 0x20 :: 0x20 :: 0x7D :: rest))
      = some ([(utf8 "completed", .bool b)], rest) := by
  cases b <;> rfl

theorem parseObjectRest_task_step (pv : GoString → Option (JVal × GoString)) (f : Nat)
    (rest : GoString) :
    parseObjectRest pv (f + 1)
        (0x2C :: 0x0A :: 0x20 :: 0x20 :: 0x20 :: 0x20 :: 0x22
          :: 0x74 :: 0x61 :: 0x73 :: 0x6B :: 0x22 :: 0x3A :: 0x20 :: 0x22 :: rest)
      = match (match pv (0x22 :: rest) with
          | none => none
          | some (v, rest3) => some ((utf8 "task", v), rest3)) with
        | none => none
        | some (m, rest1) =>
          match parseObjectRest pv f rest1 with
          | none => none
          | some (ms, rest2) => some (m :: ms, rest2) := rfl

theorem parseObjectRest_task (d f : Nat) (s : GoString) (b : Bool) (rest : GoString) :
    parseObjectRest (parseValue (d + 1)) (f + 3)
        (0x2C :: 0x0A :: 0x20 :: 0x20 :: 0x20 :: 0x20 :: 0x22
          :: 0x74 :: 0x61 :: 0x73 :: 0x6B :: 0x22 :: 0x3A :: 0x20 :: (appendString s
          ++ 0x2C :: 0x0A :: 0x20 :: 0x20 :: 0x20 :: 0x20 :: 0x22 :: 0x63 :: 0x6F :: 0x6D :: 0x70
          :: 0x6C :: 0x65 :: 0x74 :: 0x65 :: 0x64 :: 0x22 :: 0x3A :: 0x20
          :: ((if b then utf8 "true" else utf8 "false")
          ++ 0x0A :: 0x20 :: 0x20 :: 0x7D :: rest)))
      = some ([(utf8 "task", .str (toValidUTF8 s)), (utf8 "completed", .bool b)], rest) := by
  have hval := parseValue_appendString d s
    (0x2C :: 0x0A :: 0x20 :: 0x20 :: 0x20 :: 0x20 :: 0x22 :: 0x63 :: 0x6F :: 0x6D :: 0x70
      :: 0x6C :: 0x65 :: 0x74 :: 0x65 :: 0x64 :: 0x22 :: 0x3A :: 0x20
      :: ((if b then utf8 "true" else utf8 "false")
      ++ 0x0A :: 0x20 :: 0x20 :: 0x7D :: rest))
  have happ : ∀ r : GoString, appendString s ++ r
      = 0x22 :: (appendStringLoop s.length s ++ 0x22 :: r) := by
    intro r
    unfold appendString
    simp
  rw [happ] at hval ⊢
  rw [parseObjectRest_task_step, hval]
  simp only
  rw [parseObjectRest_completed]

theorem parseValue_todo_step (d : Nat) (c : Nat) (rest : GoString)
    (hc : c = 45 ∨ (48 ≤ c ∧ c ≤ 57)) :
    parseValue (d + 2)
        (0x7B :: 0x0A :: 0x20 :: 0x20 :: 0x20 :: 0x20 :: 0x22 :: 0x69 :: 0x64 :: 0x22 :: 0x3A
          :: 0x20 :: c :: rest)
      = match (match parseValue (d + 1) (c :: rest) with
          | none => none
          | some (v, rest3) => some ((utf8 "id", v), rest3)) with
        | none => none
        | some (m, rest1) =>
          match parseObjectRest (parseValue (d + 1)) rest1.length.succ rest1 with
          | none => none
          | some (ms, rest2) => some (.obj (m :: ms), rest2) := by
  have hsp : skipSpace (c :: rest) = c :: rest := by
    have : isSpace c = false := by
      unfold isSpace
      simp only [decide_eq_false_iff_not]
      omega
    simp [skipSpace, this]
  have : parseValue (d + 2)
        (0x7B :: 0x0A :: 0x20 :: 0x20 :: 0x20 :: 0x20 :: 0x22 :: 0x69 :: 0x64 :: 0x22 :: 0x3A
          :: 0x20 :: c :: rest)
      = match (match parseValue (d + 1) (skipSpace (c :: rest)) with
          | none => none
          | some (v, rest3) => some ((utf8 "id", v), rest3)) with
        | none => none
        | some (m, rest1) =>
          match parseObjectRest (parseValue (d + 1)) rest1.length.succ rest1 with
          | none => none
          | some (ms, rest2) => some (.obj (m :: ms), rest2) := rfl
  rw [this, hsp]

theorem parseValue_marshalTodo (d : Nat) (t : Todo) (rest : GoString) :
    parseValue (d + 2) (marshalTodo t ++ rest) = some (todoVal (storedTodo t), rest) := by
  obtain ⟨c, cs, heq, hc⟩ := formatInt_head t.ID
  have hnum := parseValue_formatInt d t.ID
    (0x0A :: 0x20 :: 0x20 :: 0x20 :: 0x20 :: 0x22
      :: 0x74 :: 0x61 :: 0x73 :: 0x6B :: 0x22 :: 0x3A :: 0x20 :: (appendString t.Task
      ++ 0x2C :: 0x0A :: 0x20 :: 0x20 :: 0x20 :: 0x20 :: 0x22 :: 0x63 :: 0x6F :: 0x6D :: 0x70
      :: 0x6C :: 0x65 :: 0x74 :: 0x65 :: 0x64 :: 0x22 :: 0x3A :: 0x20
      :: ((if t.Completed then utf8 "true" else utf8 "false")
      ++ 0x0A :: 0x20 :: 0x20 :: 0x7D :: rest)))
  rw [marshalTodo_bytes]
  rw [heq, List.cons_append] at hnum ⊢
  rw [parseValue_todo_step d c _ hc, hnum]
  simp only [List.length_cons, Nat.succ_eq_add_one]
  rw [parseObjectRest_task d _ t.Task t.Completed rest]
  rw [← heq]
  rfl

theorem parseArrayRest_close (pv : GoString → Option (JVal × GoString)) (f : Nat)
    (rest : GoString) :
    parseArrayRest pv (f + 1) (0x0A :: 0x5D :: rest) = some ([], rest) := rfl

theorem parseArrayRest_step (pv : GoString → Option (JVal × GoString)) (f : Nat)
    (rest : GoString) :
    parseArrayRest pv (f + 1) (0x2C :: 0x0A :: 0x20 :: 0x20 :: 0x7B :: rest)
      = match pv (0x7B :: rest) with
        | none => none
        | some (v, rest1) =>
          match parseArrayRest pv f rest1 with
          | none => none
          | some (vs, rest2) => some (v :: vs, rest2) := rfl

theorem marshalTodo_head (t : Todo) : ∃ body, marshalTodo t = 0x7B :: body := by
  have h := marshalTodo_bytes t []
  rw [List.append_nil] at h
  exact ⟨_, h⟩

theorem marshalTail_length (ts : List Todo) : ts.length ≤ (marshalTail ts).length := by
  induction ts with
  | nil => simp [marshalTail]
  | cons t ts ih =>
    obtain ⟨body, hb⟩ := marshalTodo_head t
    simp only [marshalTail, List.length_append, List.length_cons, hb]
    omega

theorem parseArrayRest_marshalTail (d : Nat) (rest : GoString) (ts : List Todo) :
    ∀ f, ts.length < f →
      parseArrayRest (parseValue (d + 2)) f (marshalTail ts ++ 0x0A :: 0x5D :: rest)
        = some (ts.map (fun t => todoVal (storedTodo t)), rest) := by
  induction ts with
  | nil =>
    intro f hf
    obtain ⟨g, rfl⟩ : ∃ g, f = g + 1 := ⟨f - 1, by simp at hf; omega⟩
    rfl
  | cons t ts ih =>
    intro f hf
    obtain ⟨g, rfl⟩ : ∃ g, f = g + 1 := ⟨f - 1, by simp at hf; omega⟩
    obtain ⟨body, hb⟩ := marshalTodo_head t
    have hsep : utf8 ",\n  " = [0x2C, 0x0A, 0x20, 0x20] := by decide
    have htodo := parseValue_marshalTodo d t (marshalTail ts ++ 0x0A :: 0x5D :: rest)
    have hrest := ih g (by simp at hf; omega)
    simp only [marshalTail, hsep, List.append_assoc, List.cons_append, List.nil_append]
    rw [hb, List.cons_append] at htodo ⊢
    rw [parseArrayRest_step, htodo]
    simp only
    rw [hrest]
    rfl

theorem jsonParse_step (body : GoString) :
    jsonParse (0x5B :: 0x0A :: 0x20 :: 0x20 :: 0x7B :: body)
      = match (match parseValue 10000 (0x7B :: body) with
          | none => none
          | some (v, rest1) =>
            match parseArrayRest (parseValue 10000) rest1.length.succ rest1 with
            | none => none
            | some (vs, rest2) => some (JVal.arr (v :: vs), rest2)) with
        | none => none
        | some (v, rest) => if skipSpace rest = [] then some v else none := rfl

theorem jsonParse_marshal (todos : List Todo) :
    jsonParse (jsonMarshalIndent todos)
      = some (.arr (todos.map (fun t => todoVal (storedTodo t)))) := by
  cases todos with
  | nil => rfl
  | cons t ts =>
    obtain ⟨body, hb⟩ := marshalTodo_head t
    have hopen : utf8 "[\n  " = [0x5B, 0x0A, 0x20, 0x20] := by decide
    have hclose : utf8 "\n]" = [0x0A, 0x5D] := by decide
    have htodo := parseValue_marshalTodo 9998 t (marshalTail ts ++ [0x0A, 0x5D])
    have hrest := parseArrayRest_marshalTail 9998 [] ts
      (marshalTail ts ++ [0x0A, 0x5D]).length.succ
      (by have := marshalTail_length ts; simp only [List.length_append]; omega)
    simp only [jsonMarshalIndent, hopen, hclose, List.append_assoc, List.cons_append,
      List.nil_append]
    rw [hb, List.cons_append] at htodo ⊢
    rw [jsonParse_step, htodo]
    simp only
    rw [hrest]
    rfl

theorem decodeTodo_todoVal (t : Todo) (h1 : minInt ≤ t.ID) (h2 : t.ID ≤ maxInt) :
    decodeTodo (todoVal t) = some t := by
  have hid : fieldOf (utf8 "id") = some Field.id := by decide
  have htask : fieldOf (utf8 "task") = some Field.task := by decide
  have hdone : fieldOf (utf8 "completed") = some Field.completed := by decide
  simp only [decodeTodo, todoVal, setFields, setField, hid, htask, hdone,
    parseInt_formatInt t.ID h1 h2]

theorem decodeElems_todoVal (todos : List Todo)
    (hid : ∀ t ∈ todos, minInt ≤ t.ID ∧ t.ID ≤ maxInt) :
    decodeElems (todos.map todoVal) = some todos := by
  induction todos with
  | nil => rfl
  | cons t ts ih =>
    have ht := hid t (List.mem_cons_self _ _)
    simp only [List.map_cons, decodeElems, decodeTodo_todoVal t ht.1 ht.2,
      ih (fun x hx => hid x (List.mem_cons_of_mem _ hx))]

/-- What is loaded after saving any collection: every task as it is stored. -/
theorem jsonUnmarshal_marshal_stored (todos : List Todo)
    (hid : ∀ t ∈ todos, minInt ≤ t.ID ∧ t.ID ≤ maxInt) :
    jsonUnmarshal (jsonMarshalIndent todos) = some (todos.map storedTodo) := by
  have hmap : todos.map (fun t => todoVal (storedTodo t)) = (todos.map storedTodo).map todoVal := by
    rw [List.map_map]
    rfl
  unfold jsonUnmarshal
  rw [jsonParse_marshal todos, hmap]
  simp only
  apply decodeElems_todoVal
  intro t ht
  obtain ⟨t0, ht0, rfl⟩ := List.mem_map.mp ht
  exact hid t0 ht0

theorem storedTodo_of_valid (t : Todo) (h : validString t.Task = true) : storedTodo t = t := by
  unfold storedTodo
  rw [toValidUTF8_of_valid t.Task h]

theorem jsonUnmarshal_marshal (todos : List Todo)
    (hid : ∀ t ∈ todos, minInt ≤ t.ID ∧ t.ID ≤ maxInt)
    (hv : ∀ t ∈ todos, validString t.Task = true) :
    jsonUnmarshal (jsonMarshalIndent todos) = some todos := by
  rw [jsonUnmarshal_marshal_stored todos hid]
  congr 1
  conv_rhs => rw [← List.map_id todos]
  apply List.map_congr_left
  intro t ht
  exact storedTodo_of_valid t (hv t ht)

set_option maxRecDepth 100000 in
/-- C6, as stated, fails.  A task whose description is the byte `0xFF` is saved
with the description written as the escape of U+FFFD, so loading yields the
description `EF BF BD`, not the one that was saved. -/
theorem save_load_counterexample :
    (saveTodos [todoInvalidUTF8] ⟨none, []⟩).file
        = some (utf8 "[\n  \x7b\n    \"id\": 1,\n    \"task\": \"\\ufffd\",\n    \"completed\": false\n  \x7d\n]")
    ∧ (loadTodos (saveTodos [todoInvalidUTF8] ⟨none, []⟩)).1
        = [{ ID := 1, Task := [0xEF, 0xBF, 0xBD], Completed := false }]
    ∧ (loadTodos (saveTodos [todoInvalidUTF8] ⟨none, []⟩)).1 ≠ [todoInvalidUTF8] := by
  decide

/-- C6, amended: for every collection of tasks whose descriptions are valid
UTF-8 (the ids being Go `int`s), saving it with `saveTodos` and then loading it
with `loadTodos` yields the same collection, same tasks in the same order, and
loading prints nothing. -/
theorem save_load_roundtrip (todos : List Todo) (w : World)
    (hid : ∀ t ∈ todos, minInt ≤ t.ID ∧ t.ID ≤ maxInt)
    (hv : ∀ t ∈ todos, validString t.Task = true) :
    (loadTodos (saveTodos todos w)).1 = todos
    ∧ (loadTodos (saveTodos todos w)).2 = saveTodos todos w := by
  have h := jsonUnmarshal_marshal todos hid hv
  have hl : loadTodos (saveTodos todos w) = (todos, saveTodos todos w) := by
    unfold loadTodos
    rw [saveTodos_file]
    simp only [h]
  rw [hl]
  exact ⟨rfl, rfl⟩

set_option maxRecDepth 100000 in
/-- C6, amended, applied to a collection with an escaped quote, a line
break, a two-byte rune and a negative id. -/
theorem save_load_roundtrip_witness :
    (loadTodos (saveTodos
        [⟨1, utf8 "Buy \"milk\"\n", false⟩, ⟨-7, utf8 "Grüße <b>", true⟩] ⟨none, []⟩)).1
      = [⟨1, utf8 "Buy \"milk\"\n", false⟩, ⟨-7, utf8 "Grüße <b>", true⟩] :=
  (save_load_roundtrip [⟨1, utf8 "Buy \"milk\"\n", false⟩, ⟨-7, utf8 "Grüße <b>", true⟩]
    ⟨none, []⟩ (by decide) (by decide)).1

/-! ## C7: a sequence of `add` commands -/

theorem numbered_append (ds : List GoString) (d : GoString) :
    numbered (ds ++ [d])
      = numbered ds ++ [{ ID := (ds.length : Int) + 1, Task := d, Completed := false }] := by
  unfold numbered
  rw [List.enum_append]
  simp [List.enumFrom_singleton]

theorem numbered_ids (ds : List GoString) :
    (numbered ds).map (fun t => t.ID) = (List.range ds.length).map (fun (k : Nat) => (k : Int) + 1) := by
  induction ds using List.reverseRecOn with
  | nil => rfl
  | append_singleton ds d ih =>
    rw [numbered_append, List.map_append, ih, List.length_append, List.length_singleton,
      List.range_succ, List.map_append]
    rfl

theorem maxWithZero_append (l : List Todo) (t : Todo) :
    maxWithZero (l ++ [t]) = max t.ID (maxWithZero l) := by
  unfold maxWithZero
  rw [List.map_append, List.foldr_append]
  simp only [List.map_cons, List.map_nil, List.foldr_cons, List.foldr_nil]
  rw [max_comm t.ID 0, foldr_max_comm]

theorem maxWithZero_numbered (ds : List GoString) : maxWithZero (numbered ds) = ds.length := by
  induction ds using List.reverseRecOn with
  | nil => rfl
  | append_singleton ds d ih =>
    rw [numbered_append, maxWithZero_append, ih]
    simp only [List.length_append, List.length_singleton, Nat.cast_add, Nat.cast_one]
    omega

theorem numbered_id_le (ds : List GoString) : ∀ t ∈ numbered ds, t.ID ≤ ds.length := by
  intro t ht
  have := le_maxWithZero (numbered ds) t ht
  rwa [maxWithZero_numbered] at this

theorem numbered_mem (ds : List GoString) (t : Todo) (ht : t ∈ numbered ds) :
    t.Task ∈ ds ∧ 1 ≤ t.ID ∧ t.ID ≤ ds.length ∧ t.Completed = false := by
  refine ⟨?_, ?_, numbered_id_le ds t ht, ?_⟩
  · unfold numbered at ht
    obtain ⟨p, hp, rfl⟩ := List.mem_map.mp ht
    exact List.snd_mem_of_mem_enum hp
  · unfold numbered at ht
    obtain ⟨p, _, rfl⟩ := List.mem_map.mp ht
    show (1 : Int) ≤ (p.1 : Int) + 1
    omega
  · unfold numbered at ht
    obtain ⟨p, _, rfl⟩ := List.mem_map.mp ht
    rfl

theorem numbered_tasks (ds : List GoString) : (numbered ds).map (fun t => t.Task) = ds := by
  unfold numbered
  rw [List.map_map]
  have : ((fun t : Todo => t.Task) ∘
      fun p : Nat × GoString => ({ ID := (p.1 : Int) + 1, Task := p.2, Completed := false } : Todo))
      = Prod.snd := rfl
  rw [this, List.enum_map_snd]

theorem numbered_stored (ds : List GoString) :
    (numbered ds).map storedTodo = numbered (ds.map toValidUTF8) := by
  induction ds using List.reverseRecOn with
  | nil => rfl
  | append_singleton ds d ih =>
    rw [numbered_append, List.map_append, ih, List.map_append]
    simp only [List.map_cons, List.map_nil]
    rw [numbered_append, List.length_map]
    rfl

theorem loadTodos_of_marshal (w : World) (todos : List Todo)
    (hf : w.file = some (jsonMarshalIndent todos))
    (hid : ∀ t ∈ todos, minInt ≤ t.ID ∧ t.ID ≤ maxInt) :
    (loadTodos w).1 = todos.map storedTodo := by
  unfold loadTodos
  rw [hf]
  simp only [jsonUnmarshal_marshal_stored todos hid]

theorem runAdds_append (ds : List GoString) (d : GoString) (w : World) :
    runAdds (ds ++ [d]) w = addTodoTask d (runAdds ds w) := by
  unfold runAdds
  rw [List.foldl_append]
  rfl

/-- The stored collection after a sequence of `add` commands on an empty
store, every command loading the file the one before it saved. -/
theorem runAdds_stored (descs : List GoString) (w : World) (hempty : (loadTodos w).1 = [])
    (hn : (descs.length : Int) ≤ maxInt) :
    (loadTodos (runAdds descs w)).1 = numbered (descs.map toValidUTF8) := by
  induction descs using List.reverseRecOn with
  | nil => exact hempty
  | append_singleton ds d ih =>
    have hlen : ((ds.length : Int) + 1) ≤ maxInt := by
      simpa [List.length_append] using hn
    have hprev := ih (by omega)
    have hadd : addTodo d (numbered (ds.map toValidUTF8))
        = numbered (ds.map toValidUTF8 ++ [d]) := by
      rw [numbered_append, addTodo_eq, maxWithZero_numbered]
      intro t ht
      have := numbered_id_le _ t ht
      rw [List.length_map] at this
      omega
    have hidem : (ds.map toValidUTF8 ++ [d]).map toValidUTF8 = (ds ++ [d]).map toValidUTF8 := by
      rw [List.map_append, List.map_append, List.map_map]
      congr 1
      apply List.map_congr_left
      intro x _
      exact toValidUTF8_idem x
    have hload := loadTodos_of_marshal (runAdds (ds ++ [d]) w)
      (numbered (ds.map toValidUTF8 ++ [d]))
      (by rw [runAdds_append, addTodoTask_file, hprev, hadd])
      (by
        intro t ht
        have := numbered_mem _ t ht
        unfold minInt
        simp only [List.length_append, List.length_map, List.length_singleton, Nat.cast_add,
          Nat.cast_one] at this
        omega)
    rw [hload, numbered_stored, hidem]

set_option maxRecDepth 100000 in
/-- C7, as stated, fails.  `add` with the description byte `0xFF` and then
`add ok` on the empty store leave the stored descriptions `EF BF BD` and `ok`:
the first one is not the description that was given. -/
theorem add_sequence_counterexample :
    (loadTodos (runAdds [[0xFF], utf8 "ok"] ⟨none, []⟩)).1
      = [{ ID := 1, Task := [0xEF, 0xBF, 0xBD], Completed := false },
          { ID := 2, Task := utf8 "ok", Completed := false }]
    ∧ (loadTodos (runAdds [[0xFF], utf8 "ok"] ⟨none, []⟩)).1.map (fun t => t.Task)
        ≠ [[0xFF], utf8 "ok"] := by
  decide

/-- C7, amended: for every sequence of `n` descriptions (`n` is the length of
a Go slice, an `int`, so at most `2^63 - 1`), running `add` once per
description on a store whose collection is empty, every run loading what the
run before it saved, leaves a stored collection of `n` tasks whose ids are
`1, 2, ..., n` in collection order, whose flags are all false and whose
descriptions are the given ones in the order added with every byte that is not
valid UTF-8 replaced by U+FFFD; they are exactly the given ones when these are
valid UTF-8. -/
theorem add_sequence_stored (descs : List GoString) (w : World)
    (hempty : (loadTodos w).1 = []) (hn : (descs.length : Int) ≤ maxInt) :
    (loadTodos (runAdds descs w)).1.length = descs.length
    ∧ (loadTodos (runAdds descs w)).1.map (fun t => t.ID)
        = (List.range descs.length).map (fun (k : Nat) => (k : Int) + 1)
    ∧ (∀ t ∈ (loadTodos (runAdds descs w)).1, t.Completed = false)
    ∧ (loadTodos (runAdds descs w)).1.map (fun t => t.Task) = descs.map toValidUTF8
    ∧ ((∀ d ∈ descs, validString d = true) →
        (loadTodos (runAdds descs w)).1.map (fun t => t.Task) = descs) := by
  rw [runAdds_stored descs w hempty hn]
  refine ⟨by simp [numbered], ?_, fun t ht => (numbered_mem _ t ht).2.2.2,
    numbered_tasks _, ?_⟩
  · rw [numbered_ids, List.length_map]
  · intro hv
    rw [numbered_tasks]
    conv_rhs => rw [← List.map_id descs]
    apply List.map_congr_left
    intro d hd
    exact toValidUTF8_of_valid d (hv d hd)

set_option maxRecDepth 100000 in
/-- C7, amended, applied to the scenario of the specification: `add "Buy milk"`
and then `add "Walk dog"` on the absent store give the ids 1 and 2 and the two
descriptions. -/
theorem add_sequence_stored_witness :
    (loadTodos (runAdds [utf8 "Buy milk", utf8 "Walk dog"] ⟨none, []⟩)).1.map (fun t => t.ID)
      = (List.range 2).map (fun (k : Nat) => (k : Int) + 1)
    ∧ (loadTodos (runAdds [utf8 "Buy milk", utf8 "Walk dog"] ⟨none, []⟩)).1.map
        (fun t => t.Task) = [utf8 "Buy milk", utf8 "Walk dog"] :=
  have h := add_sequence_stored [utf8 "Buy milk", utf8 "Walk dog"] ⟨none, []⟩
    (by decide) (by decide)
  ⟨h.2.1, h.2.2.2.2 (by decide)⟩

/-! ## C8: an id argument that `strconv.Atoi` rejects -/

theorem main_update (idArg task : GoString) (rest : List GoString) (w : World) :
    main (utf8 "update" :: idArg :: task :: rest) w = updateTodoTask (atoi idArg).1 task w := by
  have h1 : utf8 "update" ≠ utf8 "add" := by decide
  simp [main, h1]

theorem main_delete (idArg : GoString) (rest : List GoString) (w : World) :
    main (utf8 "delete" :: idArg :: rest) w = deleteTodoTask (atoi idArg).1 w := by
  have h1 : utf8 "delete" ≠ utf8 "add" := by decide
  have h2 : utf8 "delete" ≠ utf8 "update" := by decide
  simp [main, h1, h2]

theorem parseInt_errorValue (s : GoString) : ErrorValue s (parseInt s) := by
  unfold parseInt
  split
  · simp [ErrorValue]
  · rename_i c rest
    dsimp only
    split
    · simp [ErrorValue]
    · by_cases hc : c = 45
      · subst hc
        split_ifs <;> simp_all [ErrorValue]
      · split_ifs <;> simp_all [ErrorValue]

theorem atoi_errorValue (s : GoString) : ErrorValue s (atoi s) := by
  unfold atoi
  split
  · split
    · simp [ErrorValue]
    · dsimp only
      repeat' split
      all_goals simp [ErrorValue]
  · exact parseInt_errorValue s

theorem parseUintLoop_allDigits (ds : GoString) : ∀ a, AllDigits ds →
    a ≤ 18446744073709551615 →
    parseUintLoop ds a
      = if decValue ds a ≤ 18446744073709551615 then (decValue ds a, none)
        else (18446744073709551615, some NumError.errRange) := by
  induction ds with
  | nil =>
    intro a _ ha
    simp [parseUintLoop, decValue, ha]
  | cons c cs ih =>
    intro a hall ha
    have hc := hall c (List.mem_cons_self _ _)
    have hcs : AllDigits cs := fun x hx => hall x (List.mem_cons_of_mem _ hx)
    have hstep : decValue (c :: cs) a = decValue cs (a * 10 + (c - 48)) := rfl
    have hge := decValue_ge cs (a * 10 + (c - 48))
    rw [hstep]
    unfold parseUintLoop
    rw [if_pos hc]
    by_cases hcut : a ≥ 1844674407370955162
    · rw [if_pos hcut, if_neg (by omega)]
    · rw [if_neg hcut]
      simp only
      by_cases hn1 : a * 10 + (c - 48) > 18446744073709551615
      · rw [if_pos hn1, if_neg (by omega)]
      · rw [if_neg hn1]
        exact ih _ hcs (by omega)

theorem atoiFastLoop_allDigits (ds : GoString) : ∀ a : Nat, AllDigits ds →
    atoiFastLoop ds (a : Int) = some ((decValue ds a : Nat) : Int) := by
  induction ds with
  | nil => intro a _; rfl
  | cons c cs ih =>
    intro a hall
    have hc := hall c (List.mem_cons_self _ _)
    have hcs : AllDigits cs := fun x hx => hall x (List.mem_cons_of_mem _ hx)
    have hstep : decValue (c :: cs) a = decValue cs (a * 10 + (c - 48)) := rfl
    have hcast : (a : Int) * 10 + ((c : Int) - 48) = ((a * 10 + (c - 48) : Nat) : Int) := by
      omega
    unfold atoiFastLoop
    rw [if_pos hc, hcast, ih _ hcs, hstep]

theorem decValue_lt (ds : GoString) : ∀ a, AllDigits ds →
    decValue ds a < (a + 1) * 10 ^ ds.length := by
  induction ds with
  | nil => intro a _; simp [decValue]
  | cons c cs ih =>
    intro a hall
    have hc := hall c (List.mem_cons_self _ _)
    have hcs : AllDigits cs := fun x hx => hall x (List.mem_cons_of_mem _ hx)
    have hstep : decValue (c :: cs) a = decValue cs (a * 10 + (c - 48)) := rfl
    have h1 := ih (a * 10 + (c - 48)) hcs
    have h2 : (a * 10 + (c - 48) + 1) * 10 ^ cs.length ≤ ((a + 1) * 10) * 10 ^ cs.length :=
      Nat.mul_le_mul_right _ (by omega)
    rw [hstep, List.length_cons, pow_succ]
    calc decValue cs (a * 10 + (c - 48)) < (a * 10 + (c - 48) + 1) * 10 ^ cs.length := h1
      _ ≤ ((a + 1) * 10) * 10 ^ cs.length := h2
      _ = (a + 1) * (10 ^ cs.length * 10) := by ring

theorem decValue_short (ds : GoString) (hall : AllDigits ds) (hlen : ds.length ≤ 18) :
    decValue ds 0 < 10 ^ 18 := by
  have h := decValue_lt ds 0 hall
  have hp : 10 ^ ds.length ≤ 10 ^ 18 := Nat.pow_le_pow_right (by decide) hlen
  omega

theorem decimalValue_some (s : GoString) (v : Int) (h : decimalValue s = some v) :
    ∃ c rest ds, s = c :: rest ∧ ds = (if c = 43 ∨ c = 45 then rest else c :: rest)
      ∧ ds ≠ [] ∧ AllDigits ds
      ∧ v = (if c = 45 then -((decValue ds 0 : Nat) : Int) else ((decValue ds 0 : Nat) : Int)) := by
  cases s with
  | nil => cases h
  | cons c rest =>
    have hd : decimalValue (c :: rest)
        = (if (if c = 43 ∨ c = 45 then rest else c :: rest) ≠ []
              ∧ (if c = 43 ∨ c = 45 then rest else c :: rest).all
                  (fun x => decide (48 ≤ x ∧ x ≤ 57)) = true
            then some (if c = 45
              then -((decValue (if c = 43 ∨ c = 45 then rest else c :: rest) 0 : Nat) : Int)
              else ((decValue (if c = 43 ∨ c = 45 then rest else c :: rest) 0 : Nat) : Int))
            else none) := rfl
    rw [hd] at h
    by_cases hcond : (if c = 43 ∨ c = 45 then rest else c :: rest) ≠ []
        ∧ (if c = 43 ∨ c = 45 then rest else c :: rest).all
            (fun x => decide (48 ≤ x ∧ x ≤ 57)) = true
    · rw [if_pos hcond] at h
      refine ⟨c, rest, _, rfl, rfl, hcond.1, ?_, (Option.some.inj h).symm⟩
      intro x hx
      have := List.all_eq_true.mp hcond.2 x hx
      simpa using this
    · rw [if_neg hcond] at h
      cases h

theorem atoi_decimal (s : GoString) (v : Int) (h : decimalValue s = some v) :
    atoi s = if maxInt < v then (maxInt, some NumError.errRange)
      else if v < minInt then (minInt, some NumError.errRange)
      else (v, none) := by
  obtain ⟨c, rest, ds, hs, hds, hne, hall, hv⟩ := decimalValue_some s v h
  subst hs
  have hds' : (if c = 45 ∨ c = 43 then rest else c :: rest) = ds := by
    rw [hds]
    by_cases h1 : c = 43 <;> by_cases h2 : c = 45 <;> simp [h1, h2]
  have hlenle : ds.length ≤ (c :: rest).length := by
    rw [hds]
    split_ifs <;> simp
  have hmax : maxInt = 9223372036854775807 := rfl
  have hmin : minInt = -9223372036854775808 := rfl
  by_cases hfast : 0 < (c :: rest).length ∧ (c :: rest).length < 19
  · have hsmall := decValue_short ds hall (by omega)
    have hloop := atoiFastLoop_allDigits ds 0 hall
    simp only [Nat.cast_zero] at hloop
    have hvhi : ¬ maxInt < v := by rw [hmax, hv]; split_ifs <;> omega
    have hvlo : ¬ v < minInt := by rw [hmin, hv]; split_ifs <;> omega
    rw [if_neg hvhi, if_neg hvlo]
    unfold atoi
    rw [if_pos hfast]
    simp only [hds', hne, if_false, hloop]
    rw [hv]
  · have hpu : parseUint ds
        = if decValue ds 0 ≤ 18446744073709551615 then (decValue ds 0, none)
          else (18446744073709551615, some NumError.errRange) := by
      unfold parseUint
      cases ds with
      | nil => exact absurd rfl hne
      | cons d ds' => exact parseUintLoop_allDigits (d :: ds') 0 hall (by omega)
    have hlhs : atoi (c :: rest) = parseInt (c :: rest) := by
      unfold atoi
      rw [if_neg hfast]
    rw [hlhs]
    unfold parseInt
    simp only [← hds, hpu]
    by_cases hc : c = 45
    · rw [if_pos hc] at hv
      by_cases hr : decValue ds 0 > 2 ^ 63
      · have hvlo : v < minInt := by rw [hmin, hv]; omega
        have hvhi : ¬ maxInt < v := by rw [hmax, hv]; omega
        rw [if_neg hvhi, if_pos hvlo]
        split_ifs <;> simp_all
      · have hvlo : ¬ v < minInt := by rw [hmin, hv]; omega
        have hvhi : ¬ maxInt < v := by rw [hmax, hv]; omega
        rw [if_neg hvhi, if_neg hvlo]
        split_ifs <;> simp_all
        omega
    · rw [if_neg hc] at hv
      by_cases hr : decValue ds 0 ≥ 2 ^ 63
      · have hvhi : maxInt < v := by rw [hmax, hv]; omega
        rw [if_pos hvhi]
        split_ifs <;> simp_all
      · have hvlo : ¬ v < minInt := by rw [hmin, hv]; omega
        have hvhi : ¬ maxInt < v := by rw [hmax, hv]; omega
        rw [if_neg hvhi, if_neg hvlo]
        split_ifs <;> simp_all
        omega

theorem atoi_error (s : GoString) (e : NumError) (he : (atoi s).2 = some e) :
    (e = .errSyntax → (atoi s).1 = 0)
    ∧ (e = .errRange → (atoi s).1 = if s.head? = some 45 then minInt else maxInt) := by
  have h := atoi_errorValue s
  unfold ErrorValue at h
  constructor
  · intro hs
    subst hs
    exact h.1 he
  · intro hr
    subst hr
    exact h.2 he

theorem atoi_decimal_error (s : GoString) (e : NumError) (v : Int)
    (he : (atoi s).2 = some e) (hv : decimalValue s = some v) :
    e = .errRange ∧ (v < minInt ∨ maxInt < v)
    ∧ (maxInt < v → (atoi s).1 = maxInt) ∧ (v < minInt → (atoi s).1 = minInt) := by
  have hd := atoi_decimal s v hv
  have hlt : minInt < maxInt := by decide
  by_cases h1 : maxInt < v
  · rw [if_pos h1] at hd
    rw [hd] at he ⊢
    refine ⟨(Option.some.inj he).symm, Or.inr h1, fun _ => rfl, fun h2 => ?_⟩
    omega
  · rw [if_neg h1] at hd
    by_cases h2 : v < minInt
    · rw [if_pos h2] at hd
      rw [hd] at he ⊢
      exact ⟨(Option.some.inj he).symm, Or.inl h2, fun h3 => absurd h3 h1, fun _ => rfl⟩
    · rw [if_neg h2] at hd
      rw [hd] at he
      cases he

set_option maxRecDepth 100000 in
/-- C8, as stated, fails.  `strconv.Atoi` rejects `9223372036854775808` (out of
range) and returns `2^63 - 1` with the error, so `delete 9223372036854775808`
deletes the task with id `2^63 - 1`, while `delete 0` finds nothing and leaves
the file as it is. -/
theorem atoi_range_counterexample :
    atoi (utf8 "9223372036854775808") = (9223372036854775807, some NumError.errRange)
    ∧ (main [utf8 "delete", utf8 "9223372036854775808"] worldMaxID).file = some (utf8 "[]")
    ∧ (main [utf8 "delete", utf8 "0"] worldMaxID).file = worldMaxID.file
    ∧ main [utf8 "delete", utf8 "9223372036854775808"] worldMaxID
        ≠ main [utf8 "delete", utf8 "0"] worldMaxID
    ∧ main [utf8 "update", utf8 "9223372036854775808", utf8 "b"] worldMaxID
        ≠ main [utf8 "update", utf8 "0", utf8 "b"] worldMaxID := by
  decide

/-- C8, amended: for every id argument that `strconv.Atoi` rejects, `update`
and `delete` run with the value `Atoi` returned and print nothing about the
parse error.  For a syntax error that value is 0 and the command behaves
exactly as for the argument `0`.  For a range error it is `-2^63` when the text
starts with a minus sign and `2^63 - 1` when it does not; a rejected decimal
text (optional sign, then digits) always is a range error, its value lies
outside the `int` range, and the id used is the bound nearest to it. -/
theorem atoi_error_id (s : GoString) (e : NumError) (he : (atoi s).2 = some e) :
    (∀ (w : World) (task : GoString) (rest : List GoString),
        main (utf8 "update" :: s :: task :: rest) w = updateTodoTask (atoi s).1 task w
        ∧ main (utf8 "delete" :: s :: rest) w = deleteTodoTask (atoi s).1 w)
    ∧ (e = .errSyntax →
        (atoi s).1 = 0
        ∧ ∀ (w : World) (task : GoString) (rest : List GoString),
            main (utf8 "update" :: s :: task :: rest) w
              = main (utf8 "update" :: utf8 "0" :: task :: rest) w
            ∧ main (utf8 "delete" :: s :: rest) w = main (utf8 "delete" :: utf8 "0" :: rest) w)
    ∧ (e = .errRange → (atoi s).1 = if s.head? = some 45 then minInt else maxInt)
    ∧ (∀ v : Int, decimalValue s = some v →
        e = .errRange ∧ (v < minInt ∨ maxInt < v)
        ∧ (maxInt < v → (atoi s).1 = maxInt) ∧ (v < minInt → (atoi s).1 = minInt)) := by
  have herr := atoi_error s e he
  have h0 : (atoi (utf8 "0")).1 = 0 := by decide
  refine ⟨fun w task rest => ⟨main_update s task rest w, main_delete s rest w⟩, ?_, herr.2,
    fun v hv => atoi_decimal_error s e v he hv⟩
  intro hsyn
  refine ⟨herr.1 hsyn, fun w task rest => ?_⟩
  rw [main_update, main_update, main_delete, main_delete, herr.1 hsyn, h0]
  exact ⟨rfl, rfl⟩

set_option maxRecDepth 100000 in
/-- C8, amended, applied to the argument `abc` (a syntax error, so the id 0 is
used) and to the argument `-9223372036854775809` (a decimal text below the
range, so the id `-2^63` is used). -/
theorem atoi_error_id_witness :
    ((atoi (utf8 "abc")).1 = 0
      ∧ main [utf8 "delete", utf8 "abc"] worldThree
          = main [utf8 "delete", utf8 "0"] worldThree)
    ∧ (atoi (utf8 "-9223372036854775809")).1 = minInt :=
  have h := (atoi_error_id (utf8 "abc") NumError.errSyntax (by decide)).2.1 rfl
  have hr := ((atoi_error_id (utf8 "-9223372036854775809") NumError.errRange
    (by decide)).2.2.2 (-9223372036854775809) (by decide)).2.2.2 (by decide)
  ⟨⟨h.1, (h.2 worldThree [] []).2⟩, hr⟩

/-! ## C9: `view` -/

/-- C9: `view` never writes (the file, or its absence, is what it was).  After
what `loadTodos` printed it prints the heading and then one line per task, in
collection order, made of the id, the description and `erledigt` or `offen`
according to the flag; on an empty collection (also when the file is absent)
no task line is printed. -/
theorem view_read_only (w : World) :
    (viewTodoList w).file = w.file
    ∧ (viewTodoList w).out
        = (loadTodos w).2.out ++ [Printed.text (utf8 "Aufgabenliste:\n")]
            ++ (loadTodos w).1.map (fun todo => Printed.text (taskLine todo))
    ∧ (∀ todo : Todo, taskLine todo
        = utf8 "ID: " ++ formatInt todo.ID ++ utf8 ", Aufgabe: " ++ todo.Task
            ++ utf8 ", Status: " ++ utf8 (if todo.Completed then "erledigt" else "offen")
            ++ utf8 "\n")
    ∧ ((loadTodos w).1 = [] →
        (viewTodoList w).out = (loadTodos w).2.out ++ [Printed.text (utf8 "Aufgabenliste:\n")])
    ∧ (w.file = none →
        (viewTodoList w).file = none
        ∧ (viewTodoList w).out
            = w.out ++ [Printed.text
                  (utf8 "Keine Aufgaben gefunden. Beginne mit einer leeren Liste.\n"),
                Printed.text (utf8 "Aufgabenliste:\n")]) := by
  have hfile : (viewTodoList w).file = w.file := by
    unfold viewTodoList
    simp [println_file, loadTodos_file]
  have hout : (viewTodoList w).out
      = (loadTodos w).2.out ++ [Printed.text (utf8 "Aufgabenliste:\n")]
          ++ (loadTodos w).1.map (fun todo => Printed.text (taskLine todo)) := by
    unfold viewTodoList println
    have : utf8 "Aufgabenliste:" ++ [10] = utf8 "Aufgabenliste:\n" := by decide
    simp [this]
  refine ⟨hfile, hout, ?_, ?_, ?_⟩
  · intro todo
    unfold taskLine
    have hnl : utf8 "\n" = [10] := by decide
    cases todo.Completed <;> simp [hnl]
  · intro he
    rw [hout, he]
    simp
  · intro hnone
    refine ⟨by rw [hfile, hnone], ?_⟩
    rw [hout]
    have hload : loadTodos w
        = ([], println (utf8 "Keine Aufgaben gefunden. Beginne mit einer leeren Liste.") w) := by
      unfold loadTodos
      rw [hnone]
    have : utf8 "Keine Aufgaben gefunden. Beginne mit einer leeren Liste." ++ [10]
        = utf8 "Keine Aufgaben gefunden. Beginne mit einer leeren Liste.\n" := by decide
    rw [hload]
    simp [println, this]

/-! ## C10: a file that is absent or cannot be decoded -/

/-- C10: when the file is absent, and when it is there but `json.Unmarshal`
returns an error for it, `loadTodos` yields the empty collection and leaves
the file alone; `update` and `delete` (any id) then only print the not-found
line and leave the file as it is, and `add d` replaces the file by the
collection of the single task with id 1, description `d` and
`completed = false`. -/
theorem load_failure (w : World)
    (h : w.file = none ∨ ∃ data, w.file = some data ∧ jsonUnmarshal data = none) :
    (loadTodos w).1 = []
    ∧ (loadTodos w).2.file = w.file
    ∧ (∀ (id : Int) (task : GoString),
        updateTodoTask id task w = println (notFoundLine id) (loadTodos w).2
        ∧ (updateTodoTask id task w).file = w.file)
    ∧ (∀ id : Int,
        deleteTodoTask id w = println (notFoundLine id) (loadTodos w).2
        ∧ (deleteTodoTask id w).file = w.file)
    ∧ (∀ d : GoString,
        (addTodoTask d w).file
          = some (jsonMarshalIndent [{ ID := 1, Task := d, Completed := false }])) := by
  have hempty : (loadTodos w).1 = [] := by
    unfold loadTodos
    rcases h with h | ⟨data, hf, hj⟩
    · rw [h]
    · rw [hf]
      simp only [hj]
  refine ⟨hempty, loadTodos_file w, ?_, ?_, ?_⟩
  · intro id task
    have hup := updateTodoTask_missing w id task (by rw [hempty]; simp)
    exact ⟨hup, by rw [hup, println_file, loadTodos_file]⟩
  · intro id
    have hdel := deleteTodoTask_missing w id (by rw [hempty]; simp)
    exact ⟨hdel, by rw [hdel, println_file, loadTodos_file]⟩
  · intro d
    rw [addTodoTask_file, hempty]
    rfl

set_option maxRecDepth 100000 in
/-- C10 applied to a file that holds a JSON object instead of an array. -/
theorem load_failure_witness :
    (loadTodos worldCorrupt).1 = []
    ∧ (updateTodoTask 1 (utf8 "x") worldCorrupt).file = worldCorrupt.file
    ∧ (addTodoTask (utf8 "x") worldCorrupt).file
        = some (jsonMarshalIndent [{ ID := 1, Task := utf8 "x", Completed := false }]) :=
  have h := load_failure worldCorrupt
    (Or.inr ⟨utf8 "\x7b\"id\": 1\x7d", rfl, by decide⟩)
  ⟨h.1, (h.2.2.1 1 (utf8 "x")).2, h.2.2.2.2 (utf8 "x")⟩

end TodoList
